import Mathlib

/-!
Verification development for the BSSRP solver core (routing graph,
constructors, improvers, reviewer, instance generators).

Shallow embedding notes:
* A station's display fields (name, address, physical capacity) play no
  role in any algorithm; the embedding keeps the station number and the
  bike counts.  The source refers to the station number both as `.id`
  and as `.number`; the embedding uses the single field `id`.
* Geographic distance is abstracted as a function `d : Nat → Nat → ℚ`
  on station numbers.  The source's `distance_to` is the haversine
  formula (symmetric and non-negative as a real function); the spec's
  external-interface section allows any pluggable symmetric
  non-negative distance provider, and theorems that need symmetry or
  non-negativity take them as explicit hypotheses.
* Python `float` arithmetic is modelled over `ℚ`.
* The two dictionaries `stations : id → successor` and
  `station_map : id → TargetedStation` of `SolvingStationGraph` always
  hold exactly the same keys in the same insertion order; the embedding
  merges them into one association list `entries : id ↦ (station,
  successor)` kept in insertion order, with Python-dict update
  semantics (updating an existing key keeps its position).
* Operations that `raise` in Python return `Except String _`.
-/

/-- `TargetedStation` from `src/objects/station.py`: station number
(0 is the depot), current bike count and target bike count. -/
structure TStation where
  id : Nat
  bikeCount : Int
  bikeTarget : Int
  deriving DecidableEq, Repr

namespace TStation

/-- `TargetedStation.bike_gap`: current minus target count. -/
def bike_gap (s : TStation) : Int := s.bikeCount - s.bikeTarget

/-- `TargetedStation.is_loading`: positive gap. -/
def is_loading (s : TStation) : Bool := s.bike_gap > 0

/-- `TargetedStation.is_unloading`: negative gap. -/
def is_unloading (s : TStation) : Bool := s.bike_gap < 0

/-- `TargetedStation.is_equilibrated`: zero gap. -/
def is_equilibrated (s : TStation) : Bool := s.bike_gap == 0

end TStation

/-- One entry of the merged station dictionaries: key (the station
number), station record, successor (`none` when unset). -/
abbrev GEntry := Nat × TStation × Option Nat

/-- `SolvingStationGraph` from `src/solver/graph.py`: the association
list merges the `stations` (successor) and `station_map` dictionaries,
which always share their key set and insertion order. -/
structure SolvingStationGraph where
  entries : List GEntry
  deriving DecidableEq, Repr

namespace SolvingStationGraph

/-- Python-dict assignment on the merged list: overwrite in place when
the key is present, otherwise append. -/
def dictSet : List GEntry → Nat → TStation → Option Nat → List GEntry
  | [], k, st, su => [(k, st, su)]
  | e :: es, k, st, su =>
      if e.1 = k then (k, st, su) :: es else e :: dictSet es k st su

/-- Look up an entry by key. -/
def getEntry (g : SolvingStationGraph) (sid : Nat) : Option GEntry :=
  g.entries.find? (fun e => e.1 = sid)

/-- `has_station`. -/
def has_station (g : SolvingStationGraph) (sid : Nat) : Bool :=
  (g.getEntry sid).isSome

/-- `add_station`: sets `stations[id] = None` and `station_map[id] = station`. -/
def add_station (g : SolvingStationGraph) (st : TStation) : SolvingStationGraph :=
  ⟨dictSet g.entries st.id st none⟩

/-- Construction (`__init__`): assert the depot has number 0, then add
it with bike counts (0, 0). -/
def init (depot : TStation) : Except String SolvingStationGraph :=
  if depot.id = 0 then
    .ok (add_station ⟨[]⟩ ⟨0, 0, 0⟩)
  else
    .error "Depot must have id 0"

/-- `get_station` (raises when absent). -/
def get_station (g : SolvingStationGraph) (sid : Nat) : Except String TStation :=
  match g.getEntry sid with
  | some e => .ok e.2.1
  | none => .error "Station does not exist"

/-- `list_stations`: station records in insertion order. -/
def list_stations (g : SolvingStationGraph) : List TStation :=
  g.entries.map (fun e => e.2.1)

/-- `list_edges`: the pairs `(id, successor)` for entries whose
successor is set, in insertion order. -/
def list_edges (g : SolvingStationGraph) : List (Nat × Nat) :=
  g.entries.filterMap (fun e => e.2.2.map (fun b => (e.1, b)))

/-- `remove_station`: raise when absent; otherwise clear every
successor reference to the station and delete its entry. -/
def remove_station (g : SolvingStationGraph) (sid : Nat) :
    Except String SolvingStationGraph :=
  if g.has_station sid then
    .ok ⟨(g.entries.map (fun e =>
            if e.2.2 = some sid then (e.1, e.2.1, none) else e)).filter
          (fun e => e.1 ≠ sid)⟩
  else
    .error "Station does not exist"

/-- `size`: number of keys. -/
def size (g : SolvingStationGraph) : Nat := g.entries.length

/-- `has_edge`: the first station exists and its successor is the second. -/
def has_edge (g : SolvingStationGraph) (sid1 sid2 : Nat) : Bool :=
  match g.getEntry sid1 with
  | some e => e.2.2 = some sid2
  | none => false

/-- Overwrite the successor field of an existing key. -/
def setSucc (entries : List GEntry) (sid : Nat) (su : Option Nat) : List GEntry :=
  entries.map (fun e => if e.1 = sid then (e.1, e.2.1, su) else e)

/-- `add_edge`: raises when either endpoint is missing or when exactly
this edge already exists; otherwise assigns `stations[id1] = id2`,
silently overwriting any different current successor. -/
def add_edge (g : SolvingStationGraph) (sid1 sid2 : Nat) :
    Except String SolvingStationGraph :=
  if ¬ g.has_station sid1 then .error "Station does not exist"
  else if ¬ g.has_station sid2 then .error "Station does not exist"
  else if g.has_edge sid1 sid2 then .error "Edge already exists"
  else .ok ⟨setSucc g.entries sid1 (some sid2)⟩

/-- `remove_edge`: raises unless exactly this edge is present. -/
def remove_edge (g : SolvingStationGraph) (sid1 sid2 : Nat) :
    Except String SolvingStationGraph :=
  if g.has_edge sid1 sid2 then .ok ⟨setSucc g.entries sid1 none⟩
  else .error "Edge does not exist"

/-- `is_connex`: compares the number of set successors with
`size() - 1` (the comparison is over ℤ, as in Python). -/
def is_connex (g : SolvingStationGraph) : Bool :=
  (g.list_edges.length : Int) = (g.size : Int) - 1

/-- `get_successor` (raises when the station is absent; the stored
successor may itself be `none`). -/
def get_successor (g : SolvingStationGraph) (sid : Nat) :
    Except String (Option Nat) :=
  match g.getEntry sid with
  | some e => .ok e.2.2
  | none => .error "Station does not exist"

/-- `get_predecessor`: first key in insertion order whose successor is
the given station (raises when the station is absent). -/
def get_predecessor (g : SolvingStationGraph) (sid : Nat) :
    Except String (Option Nat) :=
  if g.has_station sid then
    .ok ((g.entries.find? (fun e => e.2.2 = some sid)).map (fun e => e.1))
  else
    .error "Station does not exist"

/-- One candidate step of `get_nearest_neighbor`: keep the running
strictly-nearest eligible station. -/
def nnStep (d : Nat → Nat → ℚ) (sid : Nat) (cond : TStation → Bool)
    (acc : Option (TStation × ℚ)) (cand : TStation) : Option (TStation × ℚ) :=
  if cand.id ≠ sid ∧ cond cand then
    match acc with
    | none => some (cand, d sid cand.id)
    | some (_, m) =>
        if d sid cand.id < m then some (cand, d sid cand.id) else acc
  else acc

/-- `get_nearest_neighbor`: among stations different from the
reference that satisfy the condition, the first one (in insertion
order) at strictly minimal distance; `none` when no candidate. -/
def get_nearest_neighbor (d : Nat → Nat → ℚ) (g : SolvingStationGraph)
    (sid : Nat) (cond : TStation → Bool) : Except String (Option TStation) :=
  if g.has_station sid then
    .ok ((g.list_stations.foldl (nnStep d sid cond) none).map (fun p => p.1))
  else
    .error "Station does not exist"

end SolvingStationGraph

/-- Gap of the station stored under a key; `0` when the key is absent
(callers below only use it on keys they have walked through, where the
source would already have raised). -/
def gapOf (g : SolvingStationGraph) (sid : Nat) : Int :=
  match g.getEntry sid with
  | some e => e.2.1.bike_gap
  | none => 0

/-- The successor-following walk shared by `get_turn`,
`assert_solution` and `review_solution`: starting from `current`,
append stations until one has already been seen (then stop, not
re-appending it) or one has no successor; looking up the successor of
an absent station raises.  The fuel only rules out non-termination on
ill-formed graphs; `get_turn` passes `size + 1`, which the walk can
never exhaust since every step visits a fresh present station. -/
def walkFrom (g : SolvingStationGraph) :
    Nat → Nat → List Nat → Except String (List Nat)
  | 0, _, _ => .error "walk did not terminate"
  | fuel + 1, current, visited =>
      if current ∈ visited then .ok []
      else
        match g.getEntry current with
        | none => .error "Station does not exist"
        | some e =>
            match e.2.2 with
            | none => .ok [current]
            | some nxt => do
                let rest ← walkFrom g fuel nxt (current :: visited)
                .ok (current :: rest)

/-- `get_turn`: the walk from the depot. -/
def SolvingStationGraph.get_turn (g : SolvingStationGraph) :
    Except String (List Nat) :=
  walkFrom g (g.size + 1) 0 []

/-- `assert_solution` from `src/solver/reviewer.py`: require
`is_connex`, a zero total bike gap along the walk from the depot, and
that the walk covers every non-depot station. -/
def assert_solution (g : SolvingStationGraph) : Except String Unit :=
  if ¬ g.is_connex then .error "The graph is not connex"
  else do
    let vs ← walkFrom g (g.size + 1) 0 []
    let gapSum := (vs.map (gapOf g)).sum
    if gapSum ≠ 0 then .error "The graph does not have a total bike gap of 0"
    else
      let all_stations := (g.list_stations.filter (fun s => s.id ≠ 0)).map
        (fun s => s.id)
      if all_stations.all (fun sid => sid ∈ vs) then .ok ()
      else .error "The graph does not visit all stations"

/-- The distance-accumulating walk of `review_solution`: like
`walkFrom` but summing `d current successor` whenever the successor is
set — including the edge into an already-visited station, so a closing
edge back to the depot would be counted. -/
def reviewWalk (g : SolvingStationGraph) (d : Nat → Nat → ℚ) :
    Nat → Nat → List Nat → ℚ → Except String ℚ
  | 0, _, _, _ => .error "walk did not terminate"
  | fuel + 1, current, visited, acc =>
      if current ∈ visited then .ok acc
      else
        match g.getEntry current with
        | none => .error "Station does not exist"
        | some e =>
            match e.2.2 with
            | none => .ok acc
            | some nxt =>
                if g.has_station nxt then
                  reviewWalk g d fuel nxt (current :: visited) (acc + d current nxt)
                else .error "Station does not exist"

/-- One candidate-selection pass of Prim's loop in `compute_bounds`:
the minimum-distance pair over `visited × remaining`, strict
improvement only, first candidate wins ties.  (Python iterates the two
sets in hash order; the embedding iterates in insertion order — the
minimal value is order-independent, only tie-breaking differs.) -/
def primPick (d : Nat → Nat → ℚ) (visited remaining : List Nat) :
    Option (ℚ × Nat) :=
  visited.foldl (fun acc v =>
    remaining.foldl (fun acc2 r =>
      match acc2 with
      | none => some (d v r, r)
      | some (m, _) => if d v r < m then some (d v r, r) else acc2) acc) none

/-- Prim's accumulation loop of `compute_bounds`.  The fuel is the
initial number of remaining stations; each round removes the picked
station, so the fuel is never exhausted. -/
def primLoop (d : Nat → Nat → ℚ) :
    Nat → List Nat → List Nat → ℚ → ℚ
  | 0, _, _, total => total
  | fuel + 1, visited, remaining, total =>
      if remaining.isEmpty then total
      else
        match primPick d visited remaining with
        | none => total
        | some (m, r) =>
            primLoop d fuel (visited ++ [r]) (remaining.erase r) (total + m)

/-- Insert into a sorted list of rationals (ascending, stable). -/
def insertAsc (x : ℚ) : List ℚ → List ℚ
  | [] => [x]
  | y :: ys => if x ≤ y then x :: y :: ys else y :: insertAsc x ys

/-- Python `sorted` on a list of rationals, as a stable insertion sort
(only the two smallest elements are ever used by `compute_bounds`). -/
def sortAsc : List ℚ → List ℚ
  | [] => []
  | x :: xs => insertAsc x (sortAsc xs)

/-- `compute_bounds`: MST over non-depot stations (Prim) plus the two
shortest depot edges; upper bound is twice the lower bound. -/
def compute_bounds (d : Nat → Nat → ℚ) (g : SolvingStationGraph) : ℚ × ℚ :=
  let stations := g.list_stations
  if stations.length ≤ 1 then (0, 0)
  else
    match stations.filter (fun s => s.id ≠ 0) with
    | [] => (0, 0)
    | s0 :: rest =>
        let mst := primLoop d rest.length [s0.id] (rest.map (fun s => s.id)) 0
        let edges := sortAsc ((s0 :: rest).map (fun s => d 0 s.id))
        let two_shortest := (edges.take 2).sum
        let held_karp := mst + two_shortest
        (held_karp, 2 * held_karp)

/-- `SolutionMetrics`. -/
structure SolutionMetrics where
  solved : Bool
  distance : ℚ
  score : ℚ
  deriving DecidableEq, Repr

/-- `review_solution`: assert the solution, walk the tour summing
distances, compute the bounds and the normalized score. -/
def review_solution (d : Nat → Nat → ℚ) (g : SolvingStationGraph) :
    Except String SolutionMetrics := do
  assert_solution g
  let dist ← reviewWalk g d (g.size + 1) 0 [] 0
  let bounds := compute_bounds d g
  let score := if bounds.2 ≤ bounds.1 then (1 : ℚ)
    else 1 - (dist - bounds.1) / (bounds.2 - bounds.1)
  .ok ⟨true, dist, score⟩

/-- The station scan of `is_graph_solvable` (early return on the first
station with too large a gap, then a zero-sum check). -/
def solvableGo (q : Int) : List TStation → Int → Bool
  | [], total => total == 0
  | st :: rest, total =>
      if st.id ≠ 0 then
        if |st.bike_gap| > q.fdiv 2 then false
        else solvableGo q rest (total + st.bike_gap)
      else solvableGo q rest total

/-- `is_graph_solvable` from `src/solver/solver.py`; Python `q // 2`
is flooring division, `Int.fdiv`. -/
def is_graph_solvable (g : SolvingStationGraph) (q : Int) : Bool :=
  solvableGo q g.list_stations 0

/-- Modelled from the spec (for comparison with the source's
`is_connex`): "every station has a successor and the walk from the
depot visits all stations exactly once". -/
def spec_is_connex (g : SolvingStationGraph) : Bool :=
  g.entries.all (fun e => e.2.2.isSome) &&
    match g.get_turn with
    | .ok t => (g.entries.map (fun e => e.1)).all (fun k => t.count k = 1)
    | .error _ => false

/-- `calculate_total_distance` from `src/solver/algorithm/opt.py`: sum
of distances over consecutive pairs of a turn list. -/
def totalDistance (d : Nat → Nat → ℚ) : List Nat → ℚ
  | [] => 0
  | [_] => 0
  | a :: b :: rest => d a b + totalDistance d (b :: rest)

/-- The load simulation of `is_turn_feasible`: add each station's gap
in order, failing as soon as the load leaves `[0, q]`. -/
def feasLoop (gap : Nat → Int) (q : Int) : Int → List Nat → Bool
  | _, [] => true
  | load, sid :: rest =>
      let load2 := load + gap sid
      if load2 < 0 ∨ load2 > q then false else feasLoop gap q load2 rest

/-- `is_turn_feasible` from `src/solver/algorithm/opt.py`: simulate
the vehicle load from index 1 on (the depot at index 0 is excluded). -/
def is_turn_feasible (g : SolvingStationGraph) (turn : List Nat) (q : Int) : Bool :=
  feasLoop (gapOf g) q 0 (turn.drop 1)

/-- Python `turn[:i] + turn[i:j+1][::-1] + turn[j+1:]`. -/
def reversalSegment (turn : List Nat) (i j : Nat) : List Nat :=
  turn.take i ++ ((turn.drop i).take (j + 1 - i)).reverse ++ turn.drop (j + 1)

/-- The body of `try_improve` in `opt2` for one index pair `(i, j)`:
accept when the two replaced edges are strictly shorter and the
reversed turn is load-feasible. -/
def try2optAt (d : Nat → Nat → ℚ) (g : SolvingStationGraph) (q : Int)
    (turn : List Nat) (i j : Nat) : Option (List Nat) :=
  let current_dist := d (turn.getD (i - 1) 0) (turn.getD i 0) +
    d (turn.getD j 0) (turn.getD (j + 1) 0)
  let new_dist := d (turn.getD (i - 1) 0) (turn.getD j 0) +
    d (turn.getD i 0) (turn.getD (j + 1) 0)
  if new_dist < current_dist then
    let new_turn := reversalSegment turn i j
    if is_turn_feasible g new_turn q then some new_turn else none
  else none

/-- `try_improve` of `opt2`: first improvement over
`i ∈ range(1, n−2)`, `j ∈ range(i+1, n−1)`. -/
def try_improve (d : Nat → Nat → ℚ) (g : SolvingStationGraph) (q : Int)
    (turn : List Nat) : Option (List Nat) :=
  let n := turn.length
  (List.range' 1 (n - 3)).findSome? (fun i =>
    (List.range' (i + 1) (n - 2 - i)).findSome? (fun j =>
      try2optAt d g q turn i j))

/-- The `max_iterations` loop of `opt2` over the local turn variable
(the source installs each accepted turn into the graph with
`apply_turn`; the loop state itself is this list). -/
def opt2Loop (d : Nat → Nat → ℚ) (g : SolvingStationGraph) (q : Int) :
    Nat → List Nat → List Nat
  | 0, turn => turn
  | fuel + 1, turn =>
      match try_improve d g q turn with
      | none => turn
      | some t2 => opt2Loop d g q fuel t2

/-- `opt2` from `src/solver/algorithm/opt.py`, returning the turn that
ends up installed in the graph. -/
def opt2 (d : Nat → Nat → ℚ) (g : SolvingStationGraph) (q : Int)
    (max_iterations : Nat) : Except String (List Nat) := do
  let turn ← g.get_turn
  .ok (opt2Loop d g q max_iterations turn)

/-- ALNS simulated-annealing constants: cooling rate 0.995 and minimum
temperature 0.01. -/
def coolTemp (t : ℚ) : ℚ := max (1 / 100) (t * (995 / 1000))

/-- The load simulation of `is_insertion_feasible_simple`: unlike
`feasLoop` it skips the depot wherever it occurs in the list. -/
def insFeasLoop (gap : Nat → Int) (q : Int) : Int → List Nat → Bool
  | _, [] => true
  | load, sid :: rest =>
      if sid = 0 then insFeasLoop gap q load rest
      else
        let load2 := load + gap sid
        if load2 < 0 ∨ load2 > q then false else insFeasLoop gap q load2 rest

/-- `is_insertion_feasible_simple` from
`src/solver/algorithm/improver/alns.py`: rebuild the tour with the
station inserted after the given index and simulate the load. -/
def is_insertion_feasible_simple (gap : Nat → Int) (tour : List Nat)
    (sid : Nat) (i : Nat) (q : Int) : Bool :=
  insFeasLoop gap q 0 (tour.take (i + 1) ++ [sid] ++ tour.drop (i + 1))

/-- The insertion-position scan of `greedy_repair`: over
`i ∈ range(len(tour))`, keep the feasible position of strictly
minimal detour cost; the recorded position is `i + 1`. -/
def bestInsertPos (d : Nat → Nat → ℚ) (gap : Nat → Int) (q : Int)
    (tour : List Nat) (sid : Nat) : Option Nat :=
  ((List.range tour.length).foldl (fun acc i =>
    let prev := tour.getD i 0
    let next := if i + 1 < tour.length then tour.getD (i + 1) 0 else tour.getD 0 0
    let cost := d prev sid + d sid next - d prev next
    if is_insertion_feasible_simple gap tour sid i q then
      match acc with
      | none => some (cost, i + 1)
      | some (c, _) => if cost < c then some (cost, i + 1) else acc
    else acc) none).map (fun p => p.2)

/-- The reinsertion fold of `greedy_repair`: insert each removed
station at its best feasible position, failing when none exists. -/
def repairGo (d : Nat → Nat → ℚ) (gap : Nat → Int) (q : Int) :
    List Nat → List Nat → Option (List Nat)
  | [], tour => some tour
  | sid :: rest, tour =>
      match bestInsertPos d gap q tour sid with
      | none => none
      | some p => repairGo d gap q rest (tour.insertIdx p sid)

/-- `greedy_repair` from `src/solver/algorithm/improver/alns.py`:
drop the removed stations from the tour, then reinsert each one at its
cheapest feasible position. -/
def greedy_repair (d : Nat → Nat → ℚ) (gap : Nat → Int) (q : Int)
    (current_tour : List Nat) (removed : List Nat) : Option (List Nat) :=
  repairGo d gap q removed (current_tour.filter (fun sid => ¬ sid ∈ removed))

/-- The randomness consumed by one ALNS iteration, as an oracle: the
roulette-wheel operator index, the station set produced by the chosen
destroy operator, and the outcome of the simulated-annealing draw
`random.random() < exp(−Δ/τ)` (the exponential over floats is
abstracted into the Boolean outcome; the theorems below hold for every
oracle, hence for every seed). -/
structure AlnsChoice where
  opIdx : Nat
  removed : List Nat
  sa : Bool

/-- The mutable state of the ALNS loop. -/
structure AlnsState where
  currentTour : List Nat
  currentDist : ℚ
  bestTour : List Nat
  bestDist : ℚ
  temperature : ℚ
  weights : List ℚ

/-- One iteration of the `alns` loop: destroy (oracle) + greedy repair
+ simulated-annealing acceptance + adaptive weight update + cooling.
A failed repair skips the whole iteration, including the cooling. -/
def alnsIter (d : Nat → Nat → ℚ) (gap : Nat → Int) (q : Int)
    (st : AlnsState) (ch : AlnsChoice) : AlnsState :=
  match greedy_repair d gap q st.currentTour ch.removed with
  | none => st
  | some newTour =>
      let newDist := totalDistance d newTour
      if newDist < st.bestDist then
        ⟨newTour, newDist, newTour, newDist, coolTemp st.temperature,
          st.weights.set ch.opIdx (st.weights.getD ch.opIdx 0 + 15)⟩
      else if newDist < st.currentDist then
        { st with
          currentTour := newTour
          currentDist := newDist
          temperature := coolTemp st.temperature
          weights := st.weights.set ch.opIdx (st.weights.getD ch.opIdx 0 + 10) }
      else if ch.sa then
        { st with
          currentTour := newTour
          currentDist := newDist
          temperature := coolTemp st.temperature
          weights := st.weights.set ch.opIdx (st.weights.getD ch.opIdx 0 + 5) }
      else
        { st with temperature := coolTemp st.temperature }

/-- `alns` from `src/solver/algorithm/improver/alns.py`, returning the
turn installed in the graph at the end (`apply_turn(graph, best_tour)`).
One `AlnsChoice` is consumed per iteration, so `max_iterations` is the
length of the oracle list. -/
def alns (d : Nat → Nat → ℚ) (gap : Nat → Int) (q : Int)
    (initial_turn : List Nat) (choices : List AlnsChoice) : List Nat :=
  if initial_turn.length < 2 then initial_turn
  else
    let d0 := totalDistance d initial_turn
    (choices.foldl (alnsIter d gap q)
      ⟨initial_turn, d0, initial_turn, d0, d0 * (1 / 10), [1, 1, 1]⟩).bestTour

/-- The scan `get_predecessor` performs for a present station: is
there no entry whose successor is this station?  (`greedy`'s candidate
predicate evaluates this on stations taken from `list_stations`, which
are always present.) -/
def predIsNone (g : SolvingStationGraph) (sid : Nat) : Bool :=
  (g.entries.find? (fun e => e.2.2 = some sid)).isNone

/-- The candidate predicate of the `greedy` loop: not the depot, not
the cursor, no predecessor yet, and the load stays within `[0, q]`. -/
def greedyCond (g : SolvingStationGraph) (cursorId : Nat) (load q : Int) :
    TStation → Bool :=
  fun s => (s.id != 0) && (s.id != cursorId) && predIsNone g s.id &&
    decide (0 ≤ load + s.bike_gap) && decide (load + s.bike_gap ≤ q)

/-- The `for i in range(1, size − 1)` loop of `greedy` (and of
`method1`, whose loop body is identical): the fuel is the iteration
count `size − 2`. -/
def greedyLoop (d : Nat → Nat → ℚ) (q : Int) :
    Nat → SolvingStationGraph → TStation → Int →
    Except String (SolvingStationGraph × TStation × Int)
  | 0, g, cursor, load => .ok (g, cursor, load)
  | fuel + 1, g, cursor, load => do
      let near ← g.get_nearest_neighbor d cursor.id (greedyCond g cursor.id load q)
      match near with
      | none => .error "No valid successor found, graph might be unsolvable"
      | some ns => do
          let g2 ← g.add_edge cursor.id ns.id
          greedyLoop d q fuel g2 ns (load + ns.bike_gap)

/-- `greedy` from `src/solver/algorithm/builder/greedy.py`: start at
the loading station nearest to the depot (a missing candidate crashes
in the source — the walk dereferences `None`), run the greedy loop
`size − 2` times, close the tour back to the depot.  Snapshot taking
is visualization-only and omitted. -/
def greedy (d : Nat → Nat → ℚ) (g : SolvingStationGraph) (q : Int) :
    Except String SolvingStationGraph := do
  let first ← g.get_nearest_neighbor d 0
    (fun s => (s.id != 0) && s.is_loading)
  match first with
  | none => .error "NoneType has no attribute id"
  | some c0 => do
      let g1 ← g.add_edge 0 c0.id
      let res ← greedyLoop d q (g.size - 2) g1 c0 c0.bike_gap
      let g3 ← res.1.add_edge res.2.1.id 0
      .ok g3

/-- The first-station choice of `method1` from
`src/solver/algorithm/method1.py`: a uniformly random element of the
loading stations, `loading_stations[random.randint(0, len − 1)]`; the
drawn index is the oracle `idx`. -/
def method1FirstStation (g : SolvingStationGraph) (idx : Nat) : Option TStation :=
  (g.list_stations.filter TStation.is_loading)[idx]?

/-- `method1` from `src/solver/algorithm/method1.py`: identical to
`greedy` except that the first cursor station is drawn at random among
the loading stations. -/
def method1 (d : Nat → Nat → ℚ) (g : SolvingStationGraph) (q : Int)
    (idx : Nat) : Except String SolvingStationGraph :=
  match method1FirstStation g idx with
  | none => .error "IndexError"
  | some c0 => do
      let g1 ← g.add_edge 0 c0.id
      let res ← greedyLoop d q (g.size - 2) g1 c0 c0.bike_gap
      let g3 ← res.1.add_edge res.2.1.id 0
      .ok g3

/-- The excess-redistribution loop shared by the four instance
generators in `src/solver/benchmark.py` (lines 207–227 and copies):
walk the drawn gaps, shrinking opposite-sign gaps by at most
`|gap| − 1` each until the excess is consumed; returns the adjusted
gaps and the remaining excess (silently nonzero when the gaps have no
slack). -/
def redistLoop (lastPositive : Bool) (excess : Int) :
    List Int → List Int × Int
  | [] => ([], excess)
  | gp :: rest =>
      let step : Int × Int :=
        if gp > 0 ∧ ¬ lastPositive then
          let adjustment := min excess (gp - 1)
          (gp - adjustment, excess - adjustment)
        else if gp < 0 ∧ lastPositive then
          let adjustment := min excess (-gp - 1)
          (gp + adjustment, excess - adjustment)
        else (gp, excess)
      if step.2 = 0 then (step.1 :: rest, 0)
      else
        let r := redistLoop lastPositive step.2 rest
        (step.1 :: r.1, r.2)

/-- The last-gap computation of the generators: the last gap is the
negated running sum; when it violates `|gap| ≤ max_gap` it is clamped
and the excess redistributed into the earlier gaps. -/
def finalizeGaps (max_gap : Int) (gaps : List Int) : List Int :=
  let last_gap := -gaps.sum
  if |last_gap| > max_gap then
    let excess := |last_gap| - max_gap
    let lastPositive := last_gap > 0
    let clamped := if last_gap > 0 then max_gap else -max_gap
    (redistLoop lastPositive excess gaps).1 ++ [clamped]
  else gaps ++ [last_gap]

/-- The graph a generator loads: the depot (number 0, gap 0) followed
by stations `1..n` carrying the finalized gaps; the bike target 5 is a
representative draw of `randint(5, capacity − 5)`, the bike count is
`target + gap` as in the source. -/
def buildInstanceGraph (gaps : List Int) : SolvingStationGraph :=
  ⟨(0, ⟨0, 0, 0⟩, none) ::
    gaps.enum.map (fun p => (p.1 + 1, ⟨p.1 + 1, 5 + p.2, 5⟩, none))⟩

/-- The failing draws for `generate_tight_capacity_instance` with
`n_stations = 4`, `Q = 2` (`max_gap = 1`): the per-station draws
`1, 0, 1` are legal outcomes of `randint(0, 1)`, `randint(-1, 0)`,
`randint(0, 1)`. -/
def tightGapsEx : List Int := finalizeGaps 1 [1, 0, 1]

/-- A distance function for the concrete instances: stations live on a
line at integer positions equal to their number. -/
def dLine : Nat → Nat → ℚ := fun a b => |(a : ℚ) - (b : ℚ)|

/-- A fully built closed tour `0 → 1 → 2 → 0` over gaps `+2, −2`
(what `greedy` or `apply_turn` install: every station has exactly one
successor and the walk returns to the depot). -/
def closedTour3 : SolvingStationGraph :=
  ⟨[(0, ⟨0, 0, 0⟩, some 1), (1, ⟨1, 5, 3⟩, some 2), (2, ⟨2, 3, 5⟩, some 0)]⟩

/-- An `assert_solution`-passing chain `0 → 1 → 2` (gaps `+1, −1`):
`is_connex` demands exactly `size − 1` successors, so the accepted
shape is an open chain and the reviewer's distance misses any closing
edge. -/
def gScore : SolvingStationGraph :=
  ⟨[(0, ⟨0, 0, 0⟩, some 1), (1, ⟨1, 6, 5⟩, some 2), (2, ⟨2, 4, 5⟩, none)]⟩

/-- A graph in which station 1 already has successor 2, for exercising
`add_edge` on a source whose successor is set. -/
def gOver : SolvingStationGraph :=
  ⟨[(0, ⟨0, 0, 0⟩, none), (1, ⟨1, 0, 0⟩, some 2), (2, ⟨2, 0, 0⟩, none),
    (3, ⟨3, 0, 0⟩, none)]⟩

/-- A loaded, edge-free instance: loading stations 1 (gap +2) and
2 (gap +3) at distances 1 and 2 from the depot, unloading station 3
(gap −5). -/
def gLoaded : SolvingStationGraph :=
  ⟨[(0, ⟨0, 0, 0⟩, none), (1, ⟨1, 7, 5⟩, none), (2, ⟨2, 8, 5⟩, none),
    (3, ⟨3, 0, 5⟩, none)]⟩

/-- A fully built closed tour `0 → 2 → 1 → 3 → 0` (gaps `+1, +1, −2`)
that one 2-opt move improves under the line metric. -/
def gTour : SolvingStationGraph :=
  ⟨[(0, ⟨0, 0, 0⟩, some 2), (2, ⟨2, 6, 5⟩, some 1), (1, ⟨1, 6, 5⟩, some 3),
    (3, ⟨3, 3, 5⟩, some 0)]⟩

/-- The graph `greedy` builds on `gLoaded` with capacity 10 under the
line metric: the closed tour `0 → 1 → 2 → 3 → 0`. -/
def gGreedyOut : SolvingStationGraph :=
  ⟨[(0, ⟨0, 0, 0⟩, some 1), (1, ⟨1, 7, 5⟩, some 2), (2, ⟨2, 8, 5⟩, some 3),
    (3, ⟨3, 0, 5⟩, some 0)]⟩

/-- The mutating graph operations of `SolvingStationGraph`, for
stating invariants over arbitrary operation sequences. -/
inductive GOp where
  | addStation (st : TStation)
  | addEdge (a b : Nat)
  | removeEdge (a b : Nat)
  | removeStation (s : Nat)
  deriving DecidableEq, Repr

/-- Apply one operation (failures propagate as the source raises). -/
def applyOp (g : SolvingStationGraph) : GOp → Except String SolvingStationGraph
  | .addStation st => .ok (g.add_station st)
  | .addEdge a b => g.add_edge a b
  | .removeEdge a b => g.remove_edge a b
  | .removeStation s => g.remove_station s

/-- Run a sequence of operations, stopping at the first failure. -/
def runOps : SolvingStationGraph → List GOp → Except String SolvingStationGraph
  | g, [] => .ok g
  | g, op :: rest => do
      let g2 ← applyOp g op
      runOps g2 rest

/-- Every successor stored in the graph is the number of a station
currently present. -/
def succClosed (g : SolvingStationGraph) : Prop :=
  ∀ p ∈ g.list_edges, g.has_station p.2 = true

/-- The successor of `x` along the chain `l`: the second component of
the first adjacent pair starting at `x`. -/
def nextIn (l : List Nat) (x : Nat) : Option Nat :=
  ((l.zip l.tail).find? (fun p => p.1 = x)).map (fun p => p.2)

/-- The graph whose stations are those of `g0` and whose successor
fields realize the chain `l` (proof scaffolding for the constructor
invariant). -/
def chainEntries (g0 : SolvingStationGraph) (l : List Nat) : List GEntry :=
  g0.entries.map (fun e => (e.1, e.2.1, nextIn l e.1))

/-- The graph's entries link the given list in order, closing on `z`
after the last element. -/
def chainHolds (gf : SolvingStationGraph) (z : Nat) : List Nat → Prop
  | [] => True
  | [a] => ∃ st, gf.getEntry a = some (a, st, some z)
  | a :: b :: rest =>
      (∃ st, gf.getEntry a = some (a, st, some b)) ∧
        chainHolds gf z (b :: rest)

/-- The invariant of the `greedy`/`method1` loop: the graph is `g0`
with its successors forming the open chain `0 :: path`; the path is a
nonempty duplicate-free list of non-depot station keys ending at the
cursor; the running load is the path's gap sum and every prefix load
stays within `[0, q]`. -/
def greedyInv (g0 : SolvingStationGraph) (q : Int) (path : List Nat)
    (g : SolvingStationGraph) (cursor : TStation) (load : Int) : Prop :=
  g.entries = chainEntries g0 (0 :: path) ∧
  path ≠ [] ∧
  (0 :: path).Nodup ∧
  (∀ x ∈ path, ∃ e ∈ g0.entries, e.1 = x) ∧
  path.getLast? = some cursor.id ∧
  (∃ su, g0.getEntry cursor.id = some (cursor.id, cursor, su)) ∧
  feasLoop (gapOf g0) q 0 path = true ∧
  load = (path.map (gapOf g0)).sum

section Theorems

open SolvingStationGraph

/-- C1: the claim says `is_connex` holds iff every station has a
successor and the walk from the depot visits all stations exactly
once, and in particular that a fully built closed tour is connex.  The
code instead compares the edge count with `size − 1`: on the fully
built closed tour `0 → 1 → 2 → 0` (every station has exactly one
successor, the depot walk `[0, 1, 2]` covers every station exactly
once and returns to the depot) the spec-side predicate holds while
`is_connex` returns `false` — so `assert_solution` rejects every
completed tour. -/
theorem c1_is_connex_rejects_closed_tour :
    spec_is_connex closedTour3 = true ∧
    closedTour3.is_connex = false ∧
    closedTour3.get_turn = .ok [0, 1, 2] ∧
    closedTour3.has_edge 2 0 = true := by
  refine ⟨by decide, by decide, ?_, by decide⟩
  rfl

/-- C8: the tight-capacity generator's gap pipeline at
`n_stations = 4`, `Q = 2` (`max_gap = 1`) with the legal draws
`1, 0, 1`: the clamped last gap cannot be redistributed (the positive
gaps have no slack), the generator returns gaps summing to 1, and
`is_graph_solvable` — which the benchmark asserts on every generated
instance — is `false`. -/
theorem c8_tight_generator_unsolvable :
    tightGapsEx = [1, 0, 1, -1] ∧ tightGapsEx.sum = 1 ∧
    is_graph_solvable (buildInstanceGraph tightGapsEx) 2 = false := by
  refine ⟨by decide, by decide, by decide⟩

/-- C2 counterexample: on the `assert_solution`-passing chain
`0 → 1 → 2` over the line metric, `review_solution` returns distance 2
with bounds `(4, 8)` and score `3/2 ∉ [0, 1]`; moreover the distance
is below the lower bound yet the score is not 1, refuting both
`score ∈ [0, 1]` and `score = 1 ⇔ distance ≤ lower`. -/
theorem c2_score_exceeds_one :
    review_solution dLine gScore = .ok ⟨true, 2, 3 / 2⟩ ∧
    compute_bounds dLine gScore = (4, 8) ∧
    ¬ ((3 : ℚ) / 2 ≤ 1) ∧ (2 : ℚ) ≤ 4 := by
  refine ⟨by with_unfolding_all rfl, by with_unfolding_all rfl, by norm_num,
    by norm_num⟩

/-- C3 counterexample: station 1 already has successor 2, yet
`add_edge(1, 3)` does not fail — it silently replaces the successor
with 3. -/
theorem c3_add_edge_overwrites :
    gOver.get_successor 1 = .ok (some 2) ∧
    gOver.add_edge 1 3 =
      .ok ⟨[(0, ⟨0, 0, 0⟩, none), (1, ⟨1, 0, 0⟩, some 3),
            (2, ⟨2, 0, 0⟩, none), (3, ⟨3, 0, 0⟩, none)]⟩ := by
  refine ⟨by rfl, by rfl⟩

/-- C3 amended: `add_edge(a, b)` fails exactly when an endpoint is
missing or `succ[a]` is already `b`; otherwise it succeeds and assigns
`succ[a] := b`, silently overwriting any different current
successor. -/
theorem c3_add_edge_characterization (g : SolvingStationGraph) (a b : Nat) :
    (g.add_edge a b).toOption =
      (if g.has_station a && g.has_station b && ! g.has_edge a b
        then some ⟨setSucc g.entries a (some b)⟩ else none) := by
  unfold SolvingStationGraph.add_edge
  by_cases h1 : g.has_station a <;> by_cases h2 : g.has_station b <;>
    by_cases h3 : g.has_edge a b <;>
    simp [h1, h2, h3, Except.toOption]

/-- The station scan of `is_graph_solvable`, characterized: it accepts
iff every non-depot station's doubled absolute gap is at most `q` and
the accumulator plus all non-depot gaps is zero. -/
theorem solvableGo_spec (q : Int) :
    ∀ (l : List TStation) (total : Int),
      solvableGo q l total = true ↔
        ((∀ s ∈ l, s.id ≠ 0 → 2 * |s.bike_gap| ≤ q) ∧
          total + ((l.filter (fun s => s.id ≠ 0)).map TStation.bike_gap).sum = 0)
  | [], total => by
      simp [solvableGo]
  | st :: rest, total => by
      by_cases hid : st.id = 0
      · have hL : solvableGo q (st :: rest) total = solvableGo q rest total := by
          simp [solvableGo, hid]
        rw [hL, solvableGo_spec q rest total]
        constructor
        · rintro ⟨ha, hb⟩
          refine ⟨?_, ?_⟩
          · intro s hs hsid
            rcases List.mem_cons.mp hs with hs | hs
            · exact absurd (hs ▸ hid) hsid
            · exact ha s hs hsid
          · simpa [List.filter_cons, hid] using hb
        · rintro ⟨ha, hb⟩
          refine ⟨fun s hs hsid => ha s (List.mem_cons_of_mem _ hs) hsid, ?_⟩
          simpa [List.filter_cons, hid] using hb
      · by_cases hgap : |st.bike_gap| > q.fdiv 2
        · have h2 : ¬ (2 * |st.bike_gap| ≤ q) := by
            rw [Int.fdiv_eq_ediv _ (by norm_num)] at hgap
            omega
          have hL : solvableGo q (st :: rest) total = false := by
            simp [solvableGo, hid, hgap]
          rw [hL]
          constructor
          · intro h
            exact absurd h (by simp)
          · rintro ⟨ha, _⟩
            exact absurd (ha st (List.mem_cons_self st rest) hid) h2
        · have h2 : 2 * |st.bike_gap| ≤ q := by
            rw [Int.fdiv_eq_ediv _ (by norm_num)] at hgap
            omega
          have hL : solvableGo q (st :: rest) total =
              solvableGo q rest (total + st.bike_gap) := by
            simp [solvableGo, hid, hgap]
          rw [hL, solvableGo_spec q rest (total + st.bike_gap)]
          constructor
          · rintro ⟨ha, hb⟩
            refine ⟨?_, ?_⟩
            · intro s hs hsid
              rcases List.mem_cons.mp hs with hs | hs
              · subst hs; exact h2
              · exact ha s hs hsid
            · have hf : List.filter (fun s => decide (s.id ≠ 0)) (st :: rest) =
                  st :: List.filter (fun s => decide (s.id ≠ 0)) rest := by
                simp [List.filter_cons, hid]
              rw [hf, List.map_cons, List.sum_cons]
              omega
          · rintro ⟨ha, hb⟩
            have hf : List.filter (fun s => decide (s.id ≠ 0)) (st :: rest) =
                st :: List.filter (fun s => decide (s.id ≠ 0)) rest := by
              simp [List.filter_cons, hid]
            rw [hf, List.map_cons, List.sum_cons] at hb
            refine ⟨fun s hs hsid => ha s (List.mem_cons_of_mem _ hs) hsid, ?_⟩
            omega

/-- C7: `is_graph_solvable(graph, Q)` returns true iff the non-depot
gaps sum to zero and every non-depot station satisfies
`|gap| ≤ Q/2` (stated as `2·|gap| ≤ Q`, which for integer gaps is the
same as `|gap| ≤ Q // 2`). -/
theorem c7_is_graph_solvable_iff (g : SolvingStationGraph) (q : Int) :
    is_graph_solvable g q = true ↔
      (((g.list_stations.filter (fun s => s.id ≠ 0)).map TStation.bike_gap).sum = 0 ∧
        ∀ s ∈ g.list_stations, s.id ≠ 0 → 2 * |s.bike_gap| ≤ q) := by
  unfold is_graph_solvable
  rw [solvableGo_spec q g.list_stations 0]
  constructor
  · rintro ⟨ha, hb⟩
    exact ⟨by omega, ha⟩
  · rintro ⟨ha, hb⟩
    exact ⟨hb, by omega⟩

/-- Inversion for a successful `Except` bind. -/
theorem exceptBind_ok {α β : Type} {x : Except String α}
    {f : α → Except String β} {b : β} (h : x >>= f = .ok b) :
    ∃ a, x = .ok a ∧ f a = .ok b := by
  cases x with
  | error e => exact absurd h (by simp [Bind.bind, Except.bind])
  | ok a => exact ⟨a, rfl, by simpa [Bind.bind, Except.bind] using h⟩

/-- C2 amended: whenever `review_solution` succeeds, its score is
`1 − (distance − lower)/(upper − lower)` clamped to 1 when
`upper ≤ lower`; hence `score ≤ 1` iff `upper ≤ lower` or
`lower ≤ distance`, and `score = 1` iff `upper ≤ lower` or
`distance = lower`.  (The claim's `score ∈ [0, 1]` and
`score = 1 ⇔ distance ≤ lower` fail, see the counterexample.) -/
theorem c2_score_characterization (d : Nat → Nat → ℚ) (g : SolvingStationGraph)
    (m : SolutionMetrics) (h : review_solution d g = .ok m) :
    (m.score ≤ 1 ↔ ((compute_bounds d g).2 ≤ (compute_bounds d g).1 ∨
      (compute_bounds d g).1 ≤ m.distance)) ∧
    (m.score = 1 ↔ ((compute_bounds d g).2 ≤ (compute_bounds d g).1 ∨
      m.distance = (compute_bounds d g).1)) := by
  have hrev : ∃ dist, m = ⟨true, dist,
      if (compute_bounds d g).2 ≤ (compute_bounds d g).1 then (1 : ℚ)
      else 1 - (dist - (compute_bounds d g).1) /
        ((compute_bounds d g).2 - (compute_bounds d g).1)⟩ := by
    unfold review_solution at h
    obtain ⟨u, _, h⟩ := exceptBind_ok h
    obtain ⟨dist, hw, h⟩ := exceptBind_ok h
    cases h
    exact ⟨dist, rfl⟩
  obtain ⟨dist, hm⟩ := hrev
  subst hm
  by_cases hUL : (compute_bounds d g).2 ≤ (compute_bounds d g).1
  · simp [hUL]
  · have hpos : 0 < (compute_bounds d g).2 - (compute_bounds d g).1 := by
      have := lt_of_not_le hUL
      linarith
    simp only [hUL, if_false, false_or]
    constructor
    · constructor
      · intro hle
        have h0 : 0 ≤ (dist - (compute_bounds d g).1) /
            ((compute_bounds d g).2 - (compute_bounds d g).1) := by
          simp only at hle
          linarith
        rcases div_nonneg_iff.mp h0 with ⟨hn, _⟩ | ⟨_, hd⟩
        · linarith
        · linarith
      · intro hor
        have h0 : 0 ≤ (dist - (compute_bounds d g).1) /
            ((compute_bounds d g).2 - (compute_bounds d g).1) :=
          div_nonneg (by linarith) (le_of_lt hpos)
        linarith
    · constructor
      · intro heq
        have h0 : (dist - (compute_bounds d g).1) /
            ((compute_bounds d g).2 - (compute_bounds d g).1) = 0 := by
          simp only at heq
          linarith
        rcases div_eq_zero_iff.mp h0 with h1 | h1
        · linarith
        · linarith
      · intro hor
        simp only at hor
        simp only [hor, sub_self, zero_div, sub_zero]

/-- Witness for `c2_score_characterization` at the concrete instance
`gScore` with the line metric. -/
theorem c2_score_characterization_witness :
    (((⟨true, 2, 3 / 2⟩ : SolutionMetrics).score ≤ 1 ↔
      ((compute_bounds dLine gScore).2 ≤ (compute_bounds dLine gScore).1 ∨
        (compute_bounds dLine gScore).1 ≤
          (⟨true, 2, 3 / 2⟩ : SolutionMetrics).distance)) ∧
    ((⟨true, 2, 3 / 2⟩ : SolutionMetrics).score = 1 ↔
      ((compute_bounds dLine gScore).2 ≤ (compute_bounds dLine gScore).1 ∨
        (⟨true, 2, 3 / 2⟩ : SolutionMetrics).distance =
          (compute_bounds dLine gScore).1))) :=
  c2_score_characterization dLine gScore ⟨true, 2, 3 / 2⟩
    (by with_unfolding_all rfl)

/-- `totalDistance` splits across an append at the junction of the two
pieces' endpoints. -/
theorem totD_append (d : Nat → Nat → ℚ) :
    ∀ (l1 l2 : List Nat) (a b : Nat), l1.getLast? = some a → l2.head? = some b →
      totalDistance d (l1 ++ l2) =
        totalDistance d l1 + d a b + totalDistance d l2
  | [], _, _, _, h, _ => by simp at h
  | [x], [], _, _, _, h2 => by simp at h2
  | [x], y :: t, a, b, h, h2 => by
      have ha : x = a := by simpa using h
      have hb : y = b := by simpa using h2
      subst ha
      subst hb
      show d x y + totalDistance d (y :: t) = 0 + d x y + totalDistance d (y :: t)
      ring
  | x :: z :: rest, l2, a, b, h, h2 => by
      have h3 : (z :: rest).getLast? = some a := by
        rwa [List.getLast?_cons_cons] at h
      have ih := totD_append d (z :: rest) l2 a b h3 h2
      show d x z + totalDistance d ((z :: rest) ++ l2) =
        (d x z + totalDistance d (z :: rest)) + d a b + totalDistance d l2
      rw [ih]
      ring

/-- For a symmetric distance, reversing a list keeps its total
distance. -/
theorem totD_reverse (d : Nat → Nat → ℚ) (hsymm : ∀ a b, d a b = d b a) :
    ∀ l : List Nat, totalDistance d l.reverse = totalDistance d l
  | [] => rfl
  | [_] => rfl
  | x :: y :: rest => by
      have ih := totD_reverse d hsymm (y :: rest)
      have hrev : (x :: y :: rest).reverse = (y :: rest).reverse ++ [x] := by
        simp
      have h1 : ((y :: rest).reverse).getLast? = some y := by
        rw [List.getLast?_reverse]
        rfl
      rw [hrev, totD_append d ((y :: rest).reverse) [x] y x h1 rfl, ih]
      show totalDistance d (y :: rest) + d y x + 0 =
        d x y + totalDistance d (y :: rest)
      rw [hsymm y x]
      ring

/-- In-range `getD` as a `getElem?` fact. -/
theorem getD_some (turn : List Nat) (k : Nat) (hk : k < turn.length) :
    turn[k]? = some (turn.getD k 0) := by
  rw [List.getD_eq_getElem?_getD, List.getElem?_eq_getElem hk]
  rfl

/-- An accepted `try2optAt` move strictly shortens the turn (for a
symmetric distance) and passes the load-feasibility check. -/
theorem try2optAt_spec (d : Nat → Nat → ℚ) (g : SolvingStationGraph) (q : Int)
    (turn : List Nat) (i j : Nat) (t2 : List Nat)
    (hsymm : ∀ a b, d a b = d b a)
    (h1 : 1 ≤ i) (hij : i ≤ j) (hj : j + 1 < turn.length)
    (h : try2optAt d g q turn i j = some t2) :
    totalDistance d t2 < totalDistance d turn ∧
      is_turn_feasible g t2 q = true := by
  unfold try2optAt at h
  by_cases hlt : d (turn.getD (i - 1) 0) (turn.getD j 0) +
      d (turn.getD i 0) (turn.getD (j + 1) 0) <
      d (turn.getD (i - 1) 0) (turn.getD i 0) +
      d (turn.getD j 0) (turn.getD (j + 1) 0)
  · rw [if_pos hlt] at h
    by_cases hfe : is_turn_feasible g (reversalSegment turn i j) q = true
    · rw [if_pos hfe] at h
      have ht2 : t2 = reversalSegment turn i j := by
        cases h
        rfl
      subst ht2
      refine ⟨?_, hfe⟩
      -- name the three segments
      have hAB : turn.take i ++ (turn.drop i).take (j + 1 - i) =
          turn.take (j + 1) := by
        rw [← List.take_add]
        congr 1
        omega
      have hdecomp : (turn.take i ++ (turn.drop i).take (j + 1 - i)) ++
          turn.drop (j + 1) = turn := by
        rw [hAB, List.take_append_drop]
      have hiL : i < turn.length := by omega
      have hjL : j < turn.length := by omega
      have hAlen : (turn.take i).length = i := by
        rw [List.length_take]
        omega
      have hBlen : ((turn.drop i).take (j + 1 - i)).length = j + 1 - i := by
        rw [List.length_take, List.length_drop]
        omega
      have hALast : (turn.take i).getLast? = some (turn.getD (i - 1) 0) := by
        rw [List.getLast?_eq_getElem?, hAlen, List.getElem?_take]
        rw [if_pos (by omega)]
        exact getD_some turn (i - 1) (by omega)
      have hBHead : ((turn.drop i).take (j + 1 - i)).head? =
          some (turn.getD i 0) := by
        rw [List.head?_eq_getElem?, List.getElem?_take, if_pos (by omega),
          List.getElem?_drop]
        rw [show i + 0 = i from rfl]
        exact getD_some turn i hiL
      have hBLast : ((turn.drop i).take (j + 1 - i)).getLast? =
          some (turn.getD j 0) := by
        rw [List.getLast?_eq_getElem?, hBlen, List.getElem?_take,
          if_pos (by omega), List.getElem?_drop]
        rw [show i + (j + 1 - i - 1) = j by omega]
        exact getD_some turn j hjL
      have hCHead : (turn.drop (j + 1)).head? = some (turn.getD (j + 1) 0) := by
        rw [List.head?_drop]
        exact getD_some turn (j + 1) hj
      have hBne : ((turn.drop i).take (j + 1 - i)) ≠ [] := by
        intro hnil
        rw [hnil] at hBlen
        simp at hBlen
        omega
      -- total distance of the original turn
      have horig : totalDistance d turn =
          totalDistance d (turn.take i) +
          d (turn.getD (i - 1) 0) (turn.getD i 0) +
          totalDistance d ((turn.drop i).take (j + 1 - i)) +
          d (turn.getD j 0) (turn.getD (j + 1) 0) +
          totalDistance d (turn.drop (j + 1)) := by
        conv_lhs => rw [← hdecomp]
        rw [totD_append d _ _ (turn.getD j 0) (turn.getD (j + 1) 0)
          (by rw [List.getLast?_append_of_ne_nil _ hBne]; exact hBLast) hCHead]
        rw [totD_append d _ _ (turn.getD (i - 1) 0) (turn.getD i 0) hALast hBHead]
      -- total distance of the reversed turn
      have hrevne : ((turn.drop i).take (j + 1 - i)).reverse ≠ [] := by
        simpa using hBne
      have hnew : totalDistance d (reversalSegment turn i j) =
          totalDistance d (turn.take i) +
          d (turn.getD (i - 1) 0) (turn.getD j 0) +
          totalDistance d ((turn.drop i).take (j + 1 - i)) +
          d (turn.getD i 0) (turn.getD (j + 1) 0) +
          totalDistance d (turn.drop (j + 1)) := by
        unfold reversalSegment
        rw [show turn.take i ++ ((turn.drop i).take (j + 1 - i)).reverse ++
            turn.drop (j + 1) =
          (turn.take i ++ ((turn.drop i).take (j + 1 - i)).reverse) ++
            turn.drop (j + 1) from rfl]
        rw [totD_append d _ _ (turn.getD i 0) (turn.getD (j + 1) 0)
          (by rw [List.getLast?_append_of_ne_nil _ hrevne, List.getLast?_reverse]
              exact hBHead) hCHead]
        rw [totD_append d _ _ (turn.getD (i - 1) 0) (turn.getD j 0) hALast
          (by rw [List.head?_reverse]; exact hBLast)]
        rw [totD_reverse d hsymm]
      rw [hnew, horig]
      linarith
    · rw [if_neg hfe] at h
      cases h
  · rw [if_neg hlt] at h
    cases h

/-- Any turn returned by `try_improve` is strictly shorter (for a
symmetric distance) and load-feasible. -/
theorem try_improve_spec (d : Nat → Nat → ℚ) (g : SolvingStationGraph)
    (q : Int) (turn t2 : List Nat) (hsymm : ∀ a b, d a b = d b a)
    (h : try_improve d g q turn = some t2) :
    totalDistance d t2 < totalDistance d turn ∧
      is_turn_feasible g t2 q = true := by
  unfold try_improve at h
  obtain ⟨i, hi, h⟩ := List.exists_of_findSome?_eq_some h
  obtain ⟨j, hj, h⟩ := List.exists_of_findSome?_eq_some h
  rw [List.mem_range'_1] at hi
  rw [List.mem_range'_1] at hj
  exact try2optAt_spec d g q turn i j t2 hsymm (by omega) (by omega) (by omega) h

/-- The 2-opt loop never lengthens the turn and preserves
load-feasibility. -/
theorem opt2Loop_spec (d : Nat → Nat → ℚ) (g : SolvingStationGraph) (q : Int)
    (hsymm : ∀ a b, d a b = d b a) :
    ∀ (fuel : Nat) (turn : List Nat),
      totalDistance d (opt2Loop d g q fuel turn) ≤ totalDistance d turn ∧
      (is_turn_feasible g turn q = true →
        is_turn_feasible g (opt2Loop d g q fuel turn) q = true)
  | 0, turn => ⟨le_refl _, fun h => h⟩
  | fuel + 1, turn => by
      cases hti : try_improve d g q turn with
      | none =>
          have heq : opt2Loop d g q (fuel + 1) turn = turn := by
            rw [opt2Loop, hti]
          rw [heq]
          exact ⟨le_refl _, fun h => h⟩
      | some t2 =>
          have heq : opt2Loop d g q (fuel + 1) turn = opt2Loop d g q fuel t2 := by
            rw [opt2Loop, hti]
          have hstep := try_improve_spec d g q turn t2 hsymm hti
          have ih := opt2Loop_spec d g q hsymm fuel t2
          rw [heq]
          exact ⟨le_trans ih.1 (le_of_lt hstep.1), fun _ => ih.2 hstep.2⟩

/-- C5: for a symmetric distance, running 2-opt on a graph holding a
load-feasible tour returns a turn whose total distance is at most the
input turn's, the result is still load-feasible, and every accepted
move (a turn produced by `try_improve`) strictly decreases the total
distance. -/
theorem c5_opt2_monotone_feasible (d : Nat → Nat → ℚ)
    (g : SolvingStationGraph) (q : Int) (maxIter : Nat) (turn res : List Nat)
    (hsymm : ∀ a b, d a b = d b a)
    (hturn : g.get_turn = .ok turn)
    (hrun : opt2 d g q maxIter = .ok res)
    (hfeas : is_turn_feasible g turn q = true) :
    totalDistance d res ≤ totalDistance d turn ∧
    is_turn_feasible g res q = true ∧
    (∀ t2, try_improve d g q turn = some t2 →
      totalDistance d t2 < totalDistance d turn) := by
  unfold opt2 at hrun
  obtain ⟨t0, ht0, hrun⟩ := exceptBind_ok hrun
  rw [hturn] at ht0
  cases ht0
  cases hrun
  refine ⟨(opt2Loop_spec d g q hsymm maxIter turn).1,
    (opt2Loop_spec d g q hsymm maxIter turn).2 hfeas, ?_⟩
  intro t2 h
  exact (try_improve_spec d g q turn t2 hsymm h).1

/-- Witness for `c5_opt2_monotone_feasible`: on the closed tour
`0 → 2 → 1 → 3 → 0` with `Q = 2` under the line metric, 2-opt returns
`[0, 1, 2, 3]`. -/
theorem c5_opt2_witness :
    totalDistance dLine [0, 1, 2, 3] ≤ totalDistance dLine [0, 2, 1, 3] ∧
    is_turn_feasible gTour [0, 1, 2, 3] 2 = true ∧
    (∀ t2, try_improve dLine gTour 2 [0, 2, 1, 3] = some t2 →
      totalDistance dLine t2 < totalDistance dLine [0, 2, 1, 3]) :=
  c5_opt2_monotone_feasible dLine gTour 2 1000 [0, 2, 1, 3] [0, 1, 2, 3]
    (fun a b => abs_sub_comm (a : ℚ) (b : ℚ))
    (by with_unfolding_all rfl) (by with_unfolding_all rfl)
    (by with_unfolding_all rfl)

/-- One ALNS iteration keeps the best distance attached to the best
tour and never increases it. -/
theorem alnsIter_inv (d : Nat → Nat → ℚ) (gap : Nat → Int) (q : Int)
    (st : AlnsState) (ch : AlnsChoice)
    (hinv : st.bestDist = totalDistance d st.bestTour) :
    (alnsIter d gap q st ch).bestDist =
      totalDistance d (alnsIter d gap q st ch).bestTour ∧
    (alnsIter d gap q st ch).bestDist ≤ st.bestDist := by
  unfold alnsIter
  cases hrep : greedy_repair d gap q st.currentTour ch.removed with
  | none => exact ⟨hinv, le_refl _⟩
  | some newTour =>
      dsimp only
      by_cases hbest : totalDistance d newTour < st.bestDist
      · rw [if_pos hbest]
        exact ⟨rfl, le_of_lt hbest⟩
      · rw [if_neg hbest]
        by_cases hcur : totalDistance d newTour < st.currentDist
        · rw [if_pos hcur]
          exact ⟨hinv, le_refl _⟩
        · rw [if_neg hcur]
          by_cases hsa : ch.sa
          · rw [if_pos hsa]
            exact ⟨hinv, le_refl _⟩
          · rw [if_neg hsa]
            exact ⟨hinv, le_refl _⟩

/-- Folding ALNS iterations keeps the best-tour invariant and never
increases the best distance. -/
theorem alnsFold_inv (d : Nat → Nat → ℚ) (gap : Nat → Int) (q : Int) :
    ∀ (choices : List AlnsChoice) (st : AlnsState),
      st.bestDist = totalDistance d st.bestTour →
      (choices.foldl (alnsIter d gap q) st).bestDist =
        totalDistance d ((choices.foldl (alnsIter d gap q) st).bestTour) ∧
      (choices.foldl (alnsIter d gap q) st).bestDist ≤ st.bestDist
  | [], st, hinv => ⟨hinv, le_refl _⟩
  | ch :: rest, st, hinv => by
      have hstep := alnsIter_inv d gap q st ch hinv
      have ih := alnsFold_inv d gap q rest (alnsIter d gap q st ch) hstep.1
      rw [List.foldl_cons]
      exact ⟨ih.1, le_trans ih.2 hstep.2⟩

/-- C6: for every distance function, station gaps, capacity, initial
turn and oracle of per-iteration randomness (operator choice, removed
stations and simulated-annealing draws — hence for every removal size,
iteration count and seed), the tour `alns` installs at the end is at
most as long as its input tour. -/
theorem c6_alns_never_worse (d : Nat → Nat → ℚ) (gap : Nat → Int) (q : Int)
    (turn : List Nat) (choices : List AlnsChoice) :
    totalDistance d (alns d gap q turn choices) ≤ totalDistance d turn := by
  unfold alns
  by_cases hlen : turn.length < 2
  · rw [if_pos hlen]
  · rw [if_neg hlen]
    have h := alnsFold_inv d gap q choices
      ⟨turn, totalDistance d turn, turn, totalDistance d turn,
        totalDistance d turn * (1 / 10), [1, 1, 1]⟩ rfl
    calc totalDistance d ((choices.foldl (alnsIter d gap q)
          ⟨turn, totalDistance d turn, turn, totalDistance d turn,
            totalDistance d turn * (1 / 10), [1, 1, 1]⟩).bestTour)
        = (choices.foldl (alnsIter d gap q)
            ⟨turn, totalDistance d turn, turn, totalDistance d turn,
              totalDistance d turn * (1 / 10), [1, 1, 1]⟩).bestDist := h.1.symm
      _ ≤ totalDistance d turn := h.2

/-- `has_station` as the existence of an entry with the given key. -/
theorem has_station_iff_exists (g : SolvingStationGraph) (x : Nat) :
    g.has_station x = true ↔ ∃ e ∈ g.entries, e.1 = x := by
  unfold SolvingStationGraph.has_station SolvingStationGraph.getEntry
  rw [List.find?_isSome]
  simp

/-- Membership in `list_edges` as an entry with that key and
successor. -/
theorem mem_list_edges (g : SolvingStationGraph) (p : Nat × Nat) :
    p ∈ g.list_edges ↔ ∃ e ∈ g.entries, e.1 = p.1 ∧ e.2.2 = some p.2 := by
  obtain ⟨p1, p2⟩ := p
  unfold SolvingStationGraph.list_edges
  rw [List.mem_filterMap]
  constructor
  · rintro ⟨e, he, hf⟩
    rcases Option.map_eq_some'.mp hf with ⟨b, hb, hpb⟩
    refine ⟨e, he, ?_, ?_⟩
    · rw [← hpb]
    · rw [hb]
      rw [← hpb]
  · rintro ⟨e, he, h1, h2⟩
    refine ⟨e, he, ?_⟩
    rw [h2]
    simp only [Option.map_some']
    rw [h1]

/-- The entries produced by a dict update are the new binding or old
entries. -/
theorem mem_dictSet : ∀ (es : List GEntry) (k : Nat) (st : TStation)
    (su : Option Nat) (e2 : GEntry),
    e2 ∈ SolvingStationGraph.dictSet es k st su → e2 = (k, st, su) ∨ e2 ∈ es
  | [], k, st, su, e2, h => by
      unfold SolvingStationGraph.dictSet at h
      exact Or.inl (by simpa using h)
  | e :: es, k, st, su, e2, h => by
      unfold SolvingStationGraph.dictSet at h
      by_cases hk : e.1 = k
      · rw [if_pos hk] at h
        rcases List.mem_cons.mp h with h | h
        · exact Or.inl h
        · exact Or.inr (List.mem_cons_of_mem _ h)
      · rw [if_neg hk] at h
        rcases List.mem_cons.mp h with h | h
        · exact Or.inr (h ▸ List.mem_cons_self _ _)
        · rcases mem_dictSet es k st su e2 h with h | h
          · exact Or.inl h
          · exact Or.inr (List.mem_cons_of_mem _ h)

/-- Dict update keeps every old key and holds the new one. -/
theorem keys_dictSet : ∀ (es : List GEntry) (k : Nat) (st : TStation)
    (su : Option Nat) (x : Nat),
    ((∃ e ∈ es, e.1 = x) ∨ x = k) →
    ∃ e2 ∈ SolvingStationGraph.dictSet es k st su, e2.1 = x
  | [], k, st, su, x, h => by
      unfold SolvingStationGraph.dictSet
      rcases h with ⟨e, he, _⟩ | h
      · exact absurd he (List.not_mem_nil e)
      · exact ⟨(k, st, su), List.mem_singleton_self _, h.symm⟩
  | e :: es, k, st, su, x, h => by
      unfold SolvingStationGraph.dictSet
      by_cases hk : e.1 = k
      · rw [if_pos hk]
        rcases h with ⟨e0, he0, hx⟩ | h
        · rcases List.mem_cons.mp he0 with he0 | he0
          · exact ⟨(k, st, su), List.mem_cons_self _ _, by rw [← hx, he0, hk]⟩
          · exact ⟨e0, List.mem_cons_of_mem _ he0, hx⟩
        · exact ⟨(k, st, su), List.mem_cons_self _ _, h.symm⟩
      · rw [if_neg hk]
        rcases h with ⟨e0, he0, hx⟩ | h
        · rcases List.mem_cons.mp he0 with he0 | he0
          · exact ⟨e, List.mem_cons_self _ _, by rw [← he0]; exact hx⟩
          · obtain ⟨e2, he2, hx2⟩ := keys_dictSet es k st su x (Or.inl ⟨e0, he0, hx⟩)
            exact ⟨e2, List.mem_cons_of_mem _ he2, hx2⟩
        · obtain ⟨e2, he2, hx2⟩ := keys_dictSet es k st su x (Or.inr h)
          exact ⟨e2, List.mem_cons_of_mem _ he2, hx2⟩

/-- `setSucc` keys coincide with the original keys. -/
theorem keys_setSucc (es : List GEntry) (a : Nat) (su : Option Nat) (x : Nat) :
    (∃ e2 ∈ SolvingStationGraph.setSucc es a su, e2.1 = x) ↔
      ∃ e ∈ es, e.1 = x := by
  unfold SolvingStationGraph.setSucc
  constructor
  · rintro ⟨e2, he2, hx⟩
    rcases List.mem_map.mp he2 with ⟨e, he, hfe⟩
    refine ⟨e, he, ?_⟩
    rw [← hx, ← hfe]
    by_cases ha : e.1 = a
    · rw [if_pos ha]
    · rw [if_neg ha]
  · rintro ⟨e, he, hx⟩
    by_cases ha : e.1 = a
    · exact ⟨(e.1, e.2.1, su), List.mem_map.mpr ⟨e, he, by rw [if_pos ha]⟩, hx⟩
    · exact ⟨e, List.mem_map.mpr ⟨e, he, by rw [if_neg ha]⟩, hx⟩

/-- `add_edge` succeeds only with both endpoints present and then
overwrites the source's successor. -/
theorem add_edge_ok (g : SolvingStationGraph) (a b : Nat)
    (g2 : SolvingStationGraph) (h : g.add_edge a b = .ok g2) :
    g.has_station a = true ∧ g.has_station b = true ∧
      g2 = ⟨SolvingStationGraph.setSucc g.entries a (some b)⟩ := by
  unfold SolvingStationGraph.add_edge at h
  split_ifs at h with h1 h2 h3 <;>
    first
      | (injection h with h
         exact ⟨by simpa using h1, by simpa using h2, h.symm⟩)
      | simp at h

/-- `remove_edge` clears the source's successor. -/
theorem remove_edge_ok (g : SolvingStationGraph) (a b : Nat)
    (g2 : SolvingStationGraph) (h : g.remove_edge a b = .ok g2) :
    g2 = ⟨SolvingStationGraph.setSucc g.entries a none⟩ := by
  unfold SolvingStationGraph.remove_edge at h
  split_ifs at h with h1 <;>
    first
      | (injection h with h
         exact h.symm)
      | simp at h

/-- `remove_station` yields the cleared, filtered entry list. -/
theorem remove_station_ok (g : SolvingStationGraph) (s : Nat)
    (g2 : SolvingStationGraph) (h : g.remove_station s = .ok g2) :
    g2 = ⟨(g.entries.map (fun e =>
        if e.2.2 = some s then (e.1, e.2.1, none) else e)).filter
      (fun e => e.1 ≠ s)⟩ := by
  unfold SolvingStationGraph.remove_station at h
  split_ifs at h with h1 <;>
    first
      | (injection h with h
         exact h.symm)
      | simp at h

/-- `add_station` preserves successor-closure. -/
theorem succClosed_add_station (g : SolvingStationGraph) (st : TStation)
    (h : succClosed g) : succClosed (g.add_station st) := by
  intro p hp
  rcases (mem_list_edges _ p).mp hp with ⟨e2, he2, hk, hs⟩
  rcases mem_dictSet g.entries st.id st none e2 he2 with he | he
  · rw [he] at hs
    simp at hs
  · have hb := h p ((mem_list_edges g p).mpr ⟨e2, he, hk, hs⟩)
    rcases (has_station_iff_exists g p.2).mp hb with ⟨e0, he0, hx0⟩
    exact (has_station_iff_exists _ p.2).mpr
      (keys_dictSet g.entries st.id st none p.2 (Or.inl ⟨e0, he0, hx0⟩))

/-- A successful `add_edge` preserves successor-closure. -/
theorem succClosed_add_edge (g : SolvingStationGraph) (a b : Nat)
    (g2 : SolvingStationGraph) (h : succClosed g)
    (hok : g.add_edge a b = .ok g2) : succClosed g2 := by
  obtain ⟨ha, hb, hg2⟩ := add_edge_ok g a b g2 hok
  subst hg2
  intro p hp
  rcases (mem_list_edges _ p).mp hp with ⟨e2, he2, hk, hs⟩
  rcases List.mem_map.mp he2 with ⟨e, he, hfe⟩
  have hkey : ∀ (x : Nat), g.has_station x = true →
      SolvingStationGraph.has_station
        ⟨SolvingStationGraph.setSucc g.entries a (some b)⟩ x = true := by
    intro x hx
    rcases (has_station_iff_exists g x).mp hx with ⟨e0, he0, hx0⟩
    exact (has_station_iff_exists _ x).mpr
      ((keys_setSucc g.entries a (some b) x).mpr ⟨e0, he0, hx0⟩)
  by_cases hae : e.1 = a
  · rw [if_pos hae] at hfe
    rw [← hfe] at hs
    simp at hs
    rw [← hs]
    exact hkey b hb
  · rw [if_neg hae] at hfe
    rw [← hfe] at hk hs
    exact hkey p.2 (h p ((mem_list_edges g p).mpr ⟨e, he, hk, hs⟩))

/-- A successful `remove_edge` preserves successor-closure. -/
theorem succClosed_remove_edge (g : SolvingStationGraph) (a b : Nat)
    (g2 : SolvingStationGraph) (h : succClosed g)
    (hok : g.remove_edge a b = .ok g2) : succClosed g2 := by
  have hg2 := remove_edge_ok g a b g2 hok
  subst hg2
  intro p hp
  rcases (mem_list_edges _ p).mp hp with ⟨e2, he2, hk, hs⟩
  rcases List.mem_map.mp he2 with ⟨e, he, hfe⟩
  have hkey : ∀ (x : Nat), g.has_station x = true →
      SolvingStationGraph.has_station
        ⟨SolvingStationGraph.setSucc g.entries a none⟩ x = true := by
    intro x hx
    rcases (has_station_iff_exists g x).mp hx with ⟨e0, he0, hx0⟩
    exact (has_station_iff_exists _ x).mpr
      ((keys_setSucc g.entries a none x).mpr ⟨e0, he0, hx0⟩)
  by_cases hae : e.1 = a
  · rw [if_pos hae] at hfe
    rw [← hfe] at hs
    simp at hs
  · rw [if_neg hae] at hfe
    rw [← hfe] at hk hs
    exact hkey p.2 (h p ((mem_list_edges g p).mpr ⟨e, he, hk, hs⟩))

/-- A successful `remove_station` preserves successor-closure, and no
surviving edge mentions the removed station on either side. -/
theorem succClosed_remove_station (g : SolvingStationGraph) (s : Nat)
    (g2 : SolvingStationGraph) (h : succClosed g)
    (hok : g.remove_station s = .ok g2) :
    succClosed g2 ∧ ∀ p ∈ g2.list_edges, p.1 ≠ s ∧ p.2 ≠ s := by
  have hg2 := remove_station_ok g s g2 hok
  subst hg2
  have main : ∀ p ∈ (SolvingStationGraph.mk
      ((g.entries.map (fun e =>
        if e.2.2 = some s then (e.1, e.2.1, none) else e)).filter
          (fun e => e.1 ≠ s))).list_edges,
      (p.1 ≠ s ∧ p.2 ≠ s) ∧
      SolvingStationGraph.has_station (SolvingStationGraph.mk
        ((g.entries.map (fun e =>
          if e.2.2 = some s then (e.1, e.2.1, none) else e)).filter
            (fun e => e.1 ≠ s))) p.2 = true := by
    intro p hp
    rcases (mem_list_edges _ p).mp hp with ⟨e2, he2, hk, hs⟩
    rcases List.mem_filter.mp he2 with ⟨he2m, hkeep⟩
    rcases List.mem_map.mp he2m with ⟨e, he, hfe⟩
    have hp1 : p.1 ≠ s := by
      rw [← hk]
      simpa using hkeep
    by_cases hes : e.2.2 = some s
    · rw [if_pos hes] at hfe
      rw [← hfe] at hs
      simp at hs
    · rw [if_neg hes] at hfe
      rw [← hfe] at hk hs
      have hp2 : p.2 ≠ s := by
        intro hcontra
        rw [hcontra] at hs
        exact hes hs
      refine ⟨⟨hp1, hp2⟩, ?_⟩
      have hb := h p ((mem_list_edges g p).mpr ⟨e, he, hk, hs⟩)
      rcases (has_station_iff_exists g p.2).mp hb with ⟨e0, he0, hx0⟩
      apply (has_station_iff_exists _ p.2).mpr
      have hkey0 : (if e0.2.2 = some s then (e0.1, e0.2.1, none) else e0).1 =
          e0.1 := by
        by_cases he0s : e0.2.2 = some s
        · rw [if_pos he0s]
        · rw [if_neg he0s]
      refine ⟨if e0.2.2 = some s then (e0.1, e0.2.1, none) else e0, ?_, ?_⟩
      · apply List.mem_filter.mpr
        refine ⟨List.mem_map.mpr ⟨e0, he0, rfl⟩, ?_⟩
        rw [hkey0, hx0]
        simpa using hp2
      · rw [hkey0]
        exact hx0
  exact ⟨fun p hp => (main p hp).2, fun p hp => (main p hp).1⟩

/-- Running any operation sequence from a successor-closed graph keeps
it successor-closed. -/
theorem runOps_succClosed : ∀ (ops : List GOp) (g gf : SolvingStationGraph),
    succClosed g → runOps g ops = .ok gf → succClosed gf
  | [], g, gf, h, hrun => by
      cases hrun
      exact h
  | op :: rest, g, gf, h, hrun => by
      unfold runOps at hrun
      obtain ⟨g2, hg2, hrun⟩ := exceptBind_ok hrun
      have h2 : succClosed g2 := by
        cases op with
        | addStation st =>
            cases hg2
            exact succClosed_add_station g st h
        | addEdge a b => exact succClosed_add_edge g a b g2 h hg2
        | removeEdge a b => exact succClosed_remove_edge g a b g2 h hg2
        | removeStation s => exact (succClosed_remove_station g s g2 h hg2).1
      exact runOps_succClosed rest g2 gf h2 hrun

/-- C10: `remove_station(s)` clears every successor reference to `s`
(no surviving edge mentions `s`); consequently, after any sequence of
`add_station` / `add_edge` / `remove_edge` / `remove_station`
operations run from a freshly constructed graph, every stored
successor is the number of a currently present station. -/
theorem c10_successors_always_present :
    (∀ (g g2 : SolvingStationGraph) (s : Nat),
      succClosed g → g.remove_station s = .ok g2 →
      ∀ p ∈ g2.list_edges, p.1 ≠ s ∧ p.2 ≠ s) ∧
    (∀ (depot : TStation) (g0 gf : SolvingStationGraph) (ops : List GOp),
      SolvingStationGraph.init depot = .ok g0 → runOps g0 ops = .ok gf →
      ∀ p ∈ gf.list_edges, gf.has_station p.2 = true) := by
  constructor
  · intro g g2 s h hok
    exact (succClosed_remove_station g s g2 h hok).2
  · intro depot g0 gf ops hinit hrun
    have h0 : succClosed g0 := by
      unfold SolvingStationGraph.init at hinit
      split_ifs at hinit with hd <;>
        first
          | (injection hinit with hinit
             rw [← hinit]
             intro p hp
             simp [SolvingStationGraph.add_station, SolvingStationGraph.dictSet,
               SolvingStationGraph.list_edges] at hp)
          | simp at hinit
    exact runOps_succClosed ops g0 gf h0 hrun

/-- `nextIn` unfolded on a two-element head. -/
theorem nextIn_cons_cons (a b : Nat) (l : List Nat) (x : Nat) :
    nextIn (a :: b :: l) x = if a = x then some b else nextIn (b :: l) x := by
  by_cases hax : a = x
  · rw [if_pos hax]
    simp [nextIn, List.find?, List.zip, hax]
  · rw [if_neg hax]
    simp [nextIn, List.find?, List.zip, hax]

/-- Absent elements have no chain successor. -/
theorem nextIn_not_mem : ∀ (l : List Nat) (x : Nat), x ∉ l → nextIn l x = none
  | [], _, _ => rfl
  | [_], _, _ => rfl
  | a :: b :: l, x, h => by
      rw [nextIn_cons_cons,
        if_neg (fun hax => h (by rw [← hax]; exact List.mem_cons_self a _))]
      exact nextIn_not_mem (b :: l) x (fun hm => h (List.mem_cons_of_mem _ hm))

/-- In a duplicate-free chain, the last element has no successor. -/
theorem nextIn_getLast : ∀ (l : List Nat) (x : Nat), l.Nodup →
    l.getLast? = some x → nextIn l x = none
  | [], _, _, h => by simp at h
  | [_], _, _, _ => rfl
  | a :: b :: l, x, hnd, h => by
      rw [List.getLast?_cons_cons] at h
      have hx : x ∈ b :: l := List.mem_of_getLast?_eq_some h
      have hax : ¬ a = x := fun hax => (List.nodup_cons.mp hnd).1 (hax ▸ hx)
      rw [nextIn_cons_cons, if_neg hax]
      exact nextIn_getLast (b :: l) x (List.nodup_cons.mp hnd).2 h

/-- Appending a fresh element links it after the old last element and
changes no other successor. -/
theorem nextIn_snoc : ∀ (l : List Nat) (y x : Nat), l.Nodup → y ∉ l →
    nextIn (l ++ [y]) x = if l.getLast? = some x then some y else nextIn l x
  | [], y, x, _, _ => by simp [nextIn]
  | [a], y, x, _, _ => by
      rw [show ([a] ++ [y]) = [a, y] from rfl, nextIn_cons_cons]
      by_cases hax : a = x
      · rw [if_pos hax, if_pos (by rw [hax]; rfl)]
      · rw [if_neg hax, if_neg (by simp [hax])]
        rfl
  | a :: b :: l, y, x, hnd, hy => by
      have hstep : (a :: b :: l) ++ [y] = a :: b :: (l ++ [y]) := rfl
      rw [hstep, nextIn_cons_cons, List.getLast?_cons_cons, nextIn_cons_cons]
      by_cases hax : a = x
      · rw [if_pos hax, if_pos hax]
        have hxmem : ¬ (b :: l).getLast? = some x := by
          intro hlast
          exact (List.nodup_cons.mp hnd).1 (hax ▸ List.mem_of_getLast?_eq_some hlast)
        rw [if_neg hxmem]
      · rw [if_neg hax, if_neg hax]
        exact nextIn_snoc (b :: l) y x (List.nodup_cons.mp hnd).2
          (fun hm => hy (List.mem_cons_of_mem _ hm))

/-- Every element of the tail of a duplicate-free chain has a
predecessor along the chain. -/
theorem exists_pred_of_mem : ∀ (a : Nat) (rest : List Nat) (y : Nat),
    (a :: rest).Nodup → y ∈ rest →
    ∃ p ∈ a :: rest, nextIn (a :: rest) p = some y
  | _, [], y, _, h => absurd h (List.not_mem_nil y)
  | a, b :: rest, y, hnd, h => by
      rcases List.mem_cons.mp h with h | h
      · exact ⟨a, List.mem_cons_self _ _,
          by rw [nextIn_cons_cons, if_pos rfl, h]⟩
      · obtain ⟨p, hp, hnext⟩ :=
          exists_pred_of_mem b rest y (List.nodup_cons.mp hnd).2 h
        refine ⟨p, List.mem_cons_of_mem _ hp, ?_⟩
        rw [nextIn_cons_cons,
          if_neg (fun hap =>
            (List.nodup_cons.mp hnd).1 (by rw [hap]; exact hp))]
        exact hnext

/-- Any station kept by the nearest-neighbor fold was eligible and
records its distance. -/
theorem gnn_fold_mem (d : Nat → Nat → ℚ) (sid : Nat) (cond : TStation → Bool) :
    ∀ (l : List TStation) (acc : Option (TStation × ℚ)) (t : TStation) (m : ℚ),
      l.foldl (nnStep d sid cond) acc = some (t, m) →
      acc = some (t, m) ∨
        (t ∈ l ∧ t.id ≠ sid ∧ cond t = true ∧ m = d sid t.id)
  | [], _, _, _, h => Or.inl h
  | c :: rest, acc, t, m, h => by
      rw [List.foldl_cons] at h
      rcases gnn_fold_mem d sid cond rest (nnStep d sid cond acc c) t m h with
        h | h
      · by_cases hc : c.id ≠ sid ∧ cond c
        · cases acc with
          | none =>
              have h2 : (some (c, d sid c.id) : Option (TStation × ℚ)) =
                  some (t, m) := by
                rw [← h]
                unfold nnStep
                rw [if_pos hc]
              rw [Option.some_inj, Prod.mk.injEq] at h2
              exact Or.inr ⟨h2.1 ▸ List.mem_cons_self c rest,
                h2.1 ▸ hc.1, h2.1 ▸ hc.2, by rw [h2.2.symm, ← h2.1]⟩
          | some p =>
              obtain ⟨tp, mp⟩ := p
              by_cases hlt : d sid c.id < mp
              · have h2 : (some (c, d sid c.id) : Option (TStation × ℚ)) =
                    some (t, m) := by
                  rw [← h]
                  unfold nnStep
                  rw [if_pos hc]
                  dsimp only
                  rw [if_pos hlt]
                rw [Option.some_inj, Prod.mk.injEq] at h2
                exact Or.inr ⟨h2.1 ▸ List.mem_cons_self c rest,
                  h2.1 ▸ hc.1, h2.1 ▸ hc.2, by rw [h2.2.symm, ← h2.1]⟩
              · have h2 : (some (tp, mp) : Option (TStation × ℚ)) =
                    some (t, m) := by
                  rw [← h]
                  unfold nnStep
                  rw [if_pos hc]
                  dsimp only
                  rw [if_neg hlt]
                exact Or.inl h2
        · have h2 : acc = some (t, m) := by
            rw [← h]
            unfold nnStep
            rw [if_neg hc]
          exact Or.inl h2
      · exact Or.inr ⟨List.mem_cons_of_mem _ h.1, h.2⟩

/-- The nearest-neighbor fold never increases the kept distance. -/
theorem gnn_fold_mono (d : Nat → Nat → ℚ) (sid : Nat) (cond : TStation → Bool) :
    ∀ (l : List TStation) (acc : Option (TStation × ℚ)) (t0 : TStation)
      (m0 : ℚ) (t : TStation) (m : ℚ),
      acc = some (t0, m0) → l.foldl (nnStep d sid cond) acc = some (t, m) →
      m ≤ m0
  | [], acc, t0, m0, t, m, hacc, h => by
      rw [hacc, List.foldl_nil] at h
      rw [Option.some_inj, Prod.mk.injEq] at h
      exact le_of_eq h.2.symm
  | c :: rest, acc, t0, m0, t, m, hacc, h => by
      rw [List.foldl_cons] at h
      have hstep : ∃ t1 m1, nnStep d sid cond acc c = some (t1, m1) ∧
          m1 ≤ m0 := by
        unfold nnStep
        rw [hacc]
        by_cases hc : c.id ≠ sid ∧ cond c
        · rw [if_pos hc]
          dsimp only
          by_cases hlt : d sid c.id < m0
          · rw [if_pos hlt]
            exact ⟨c, d sid c.id, rfl, le_of_lt hlt⟩
          · rw [if_neg hlt]
            exact ⟨t0, m0, rfl, le_refl _⟩
        · rw [if_neg hc]
          exact ⟨t0, m0, rfl, le_refl _⟩
      obtain ⟨t1, m1, h1, hle⟩ := hstep
      rw [h1] at h
      exact le_trans (gnn_fold_mono d sid cond rest _ t1 m1 t m rfl h) hle

/-- The nearest-neighbor fold's final distance is minimal over every
eligible station of the scanned list. -/
theorem gnn_fold_min (d : Nat → Nat → ℚ) (sid : Nat) (cond : TStation → Bool) :
    ∀ (l : List TStation) (acc : Option (TStation × ℚ)) (t : TStation) (m : ℚ),
      (∀ t0 m0, acc = some (t0, m0) → m0 = d sid t0.id) →
      l.foldl (nnStep d sid cond) acc = some (t, m) →
      ∀ c ∈ l, c.id ≠ sid → cond c = true → m ≤ d sid c.id
  | [], _, _, _, _, _, c, hc, _, _ => absurd hc (List.not_mem_nil c)
  | c0 :: rest, acc, t, m, haccinv, h, c, hc, hcid, hcond => by
      rw [List.foldl_cons] at h
      have haccinv2 : ∀ t0 m0, nnStep d sid cond acc c0 = some (t0, m0) →
          m0 = d sid t0.id := by
        intro t0 m0 h0
        unfold nnStep at h0
        by_cases hc0 : c0.id ≠ sid ∧ cond c0
        · rw [if_pos hc0] at h0
          cases hacc : acc with
          | none =>
              rw [hacc] at h0
              dsimp only at h0
              rw [Option.some_inj, Prod.mk.injEq] at h0
              rw [← h0.1, ← h0.2]
          | some p =>
              obtain ⟨tp, mp⟩ := p
              rw [hacc] at h0
              dsimp only at h0
              by_cases hlt : d sid c0.id < mp
              · rw [if_pos hlt] at h0
                rw [Option.some_inj, Prod.mk.injEq] at h0
                rw [← h0.1, ← h0.2]
              · rw [if_neg hlt] at h0
                rw [Option.some_inj, Prod.mk.injEq] at h0
                rw [← h0.1, ← h0.2]
                exact haccinv tp mp hacc
        · rw [if_neg hc0] at h0
          exact haccinv t0 m0 h0
      rcases List.mem_cons.mp hc with hceq | hcmem
      · subst hceq
        have hstep : ∃ t1 m1, nnStep d sid cond acc c = some (t1, m1) ∧
            m1 ≤ d sid c.id := by
          unfold nnStep
          rw [if_pos ⟨hcid, hcond⟩]
          cases hacc : acc with
          | none => exact ⟨c, d sid c.id, rfl, le_refl _⟩
          | some p =>
              obtain ⟨tp, mp⟩ := p
              have hmp : mp = d sid tp.id := haccinv tp mp hacc
              dsimp only
              by_cases hlt : d sid c.id < mp
              · rw [if_pos hlt]
                exact ⟨c, d sid c.id, rfl, le_refl _⟩
              · rw [if_neg hlt]
                exact ⟨tp, mp, rfl, le_of_not_lt hlt⟩
        obtain ⟨t1, m1, h1, hle⟩ := hstep
        rw [h1] at h
        exact le_trans (gnn_fold_mono d sid cond rest _ t1 m1 t m rfl h) hle
      · exact gnn_fold_min d sid cond rest _ t m haccinv2 h c hcmem hcid hcond

/-- A station returned by `get_nearest_neighbor` is an eligible
station at minimal distance among all eligible stations. -/
theorem gnn_ok_some (d : Nat → Nat → ℚ) (g : SolvingStationGraph) (sid : Nat)
    (cond : TStation → Bool) (s : TStation)
    (h : get_nearest_neighbor d g sid cond = .ok (some s)) :
    s ∈ g.list_stations ∧ s.id ≠ sid ∧ cond s = true ∧
      ∀ c ∈ g.list_stations, c.id ≠ sid → cond c = true →
        d sid s.id ≤ d sid c.id := by
  unfold get_nearest_neighbor at h
  split_ifs at h with hhas
  · injection h with h
    cases hf : g.list_stations.foldl (nnStep d sid cond) none with
    | none =>
        rw [hf] at h
        simp at h
    | some p =>
        obtain ⟨t, m⟩ := p
        rw [hf] at h
        simp only [Option.map_some', Option.some_inj] at h
        subst h
        rcases gnn_fold_mem d sid cond g.list_stations none t m hf with h | h
        · simp at h
        · refine ⟨h.1, h.2.1, h.2.2.1, ?_⟩
          intro c hc h1 h2
          have := gnn_fold_min d sid cond g.list_stations none t m
            (by intro t0 m0 hh; simp at hh) hf c hc h1 h2
          rw [← h.2.2.2]
          exact this

/-- In a graph with duplicate-free keys, lookup of a present entry's
key returns that entry. -/
theorem find?_key_nodup : ∀ (es : List GEntry) (e : GEntry),
    (es.map (fun x => x.1)).Nodup → e ∈ es →
    es.find? (fun x => x.1 = e.1) = some e
  | [], e, _, he => absurd he (List.not_mem_nil e)
  | e0 :: es, e, hnd, he => by
      rcases List.mem_cons.mp he with he | he
      · rw [he]
        rw [List.find?_cons_of_pos _ (by simp)]
      · have hne : ¬ e0.1 = e.1 := by
          intro hc
          rw [List.map_cons, List.nodup_cons] at hnd
          exact hnd.1 (hc ▸ List.mem_map.mpr ⟨e, he, rfl⟩)
        rw [List.find?_cons_of_neg _ (by simpa using hne)]
        exact find?_key_nodup es e (by
          rw [List.map_cons, List.nodup_cons] at hnd
          exact hnd.2) he

/-- Lookup in a chain-entries graph is lookup in the base graph with
the successor replaced by the chain successor. -/
theorem chainEntries_getEntry (g0 : SolvingStationGraph) (l : List Nat)
    (x : Nat) :
    SolvingStationGraph.getEntry ⟨chainEntries g0 l⟩ x =
      (g0.getEntry x).map (fun e => (e.1, e.2.1, nextIn l e.1)) := by
  unfold SolvingStationGraph.getEntry chainEntries
  rw [List.find?_map]
  rfl

/-- Chain-entries graphs carry the base graph's stations. -/
theorem chainEntries_list_stations (g0 : SolvingStationGraph) (l : List Nat) :
    SolvingStationGraph.list_stations ⟨chainEntries g0 l⟩ =
      g0.list_stations := by
  unfold SolvingStationGraph.list_stations chainEntries
  rw [List.map_map]
  rfl

/-- Chain-entries graphs have the base graph's keys. -/
theorem chainEntries_has_station (g0 : SolvingStationGraph) (l : List Nat)
    (x : Nat) :
    SolvingStationGraph.has_station ⟨chainEntries g0 l⟩ x =
      g0.has_station x := by
  unfold SolvingStationGraph.has_station
  rw [chainEntries_getEntry]
  cases g0.getEntry x <;> rfl

/-- Chain-entries graphs have the base graph's size. -/
theorem chainEntries_size (g0 : SolvingStationGraph) (l : List Nat) :
    SolvingStationGraph.size ⟨chainEntries g0 l⟩ = g0.size := by
  unfold SolvingStationGraph.size chainEntries
  exact List.length_map _ _

/-- Chain-entries graphs have the base graph's gaps. -/
theorem chainEntries_gapOf (g0 : SolvingStationGraph) (l : List Nat)
    (x : Nat) :
    gapOf ⟨chainEntries g0 l⟩ x = gapOf g0 x := by
  unfold gapOf
  rw [chainEntries_getEntry]
  cases g0.getEntry x <;> rfl

/-- Setting the old last element's successor to a fresh element
extends the chain. -/
theorem setSucc_chainEntries (g0 : SolvingStationGraph) (l : List Nat)
    (cid y : Nat) (hnd : l.Nodup) (hy : y ∉ l)
    (hlast : l.getLast? = some cid) :
    SolvingStationGraph.setSucc (chainEntries g0 l) cid (some y) =
      chainEntries g0 (l ++ [y]) := by
  unfold SolvingStationGraph.setSucc chainEntries
  rw [List.map_map]
  apply List.map_congr_left
  intro e _
  show (if e.1 = cid then (e.1, e.2.1, some y)
    else (e.1, e.2.1, nextIn l e.1)) = (e.1, e.2.1, nextIn (l ++ [y]) e.1)
  rw [nextIn_snoc l y e.1 hnd hy]
  by_cases hec : e.1 = cid
  · rw [if_pos hec, if_pos (by rw [hlast, hec])]
  · rw [if_neg hec, if_neg (by
      rw [hlast]
      intro hc
      exact hec (Option.some_inj.mp hc).symm)]

/-- A graph whose entries give every chain element its chain successor
(closing on `z` after the last) satisfies `chainHolds`. -/
theorem chainHolds_of_chain (gf : SolvingStationGraph) (z : Nat) :
    ∀ (l : List Nat), l.Nodup →
      (∀ x ∈ l, ∃ st, gf.getEntry x =
        some (x, st, if l.getLast? = some x then some z else nextIn l x)) →
      chainHolds gf z l
  | [], _, _ => trivial
  | [a], _, hget => by
      obtain ⟨st, hst⟩ := hget a (List.mem_singleton_self a)
      refine ⟨st, ?_⟩
      rw [hst]
      simp
  | a :: b :: rest, hnd, hget => by
      refine ⟨?_, ?_⟩
      · obtain ⟨st, hst⟩ := hget a (List.mem_cons_self _ _)
        refine ⟨st, ?_⟩
        rw [hst]
        have hcond : ¬ (a :: b :: rest).getLast? = some a := by
          rw [List.getLast?_cons_cons]
          intro hc
          exact (List.nodup_cons.mp hnd).1 (List.mem_of_getLast?_eq_some hc)
        rw [if_neg hcond, nextIn_cons_cons, if_pos rfl]
      · apply chainHolds_of_chain gf z (b :: rest) (List.nodup_cons.mp hnd).2
        intro x hx
        obtain ⟨st, hst⟩ := hget x (List.mem_cons_of_mem _ hx)
        refine ⟨st, ?_⟩
        rw [hst]
        have h1 : nextIn (a :: b :: rest) x = nextIn (b :: rest) x := by
          rw [nextIn_cons_cons,
            if_neg (fun hax =>
              (List.nodup_cons.mp hnd).1 (by rw [hax]; exact hx))]
        rw [List.getLast?_cons_cons, h1]

/-- The successor walk follows a linked chain exactly, stopping when
the closing link points back to a visited station. -/
theorem walkFrom_chain (gf : SolvingStationGraph) (z : Nat) :
    ∀ (seq : List Nat) (x : Nat) (visited : List Nat) (fuel : Nat),
      fuel ≥ seq.length + 2 →
      (x :: seq).Nodup →
      (∀ y ∈ x :: seq, y ∉ visited) →
      (z ∈ visited ∨ z = x) →
      chainHolds gf z (x :: seq) →
      walkFrom gf fuel x visited = .ok (x :: seq)
  | [], x, visited, fuel, hfuel, _, hdisj, hz, hch => by
      obtain ⟨st, hst⟩ := hch
      obtain ⟨f, rfl⟩ : ∃ f, fuel = f + 1 := ⟨fuel - 1, by omega⟩
      rw [walkFrom, if_neg (hdisj x (List.mem_cons_self _ _))]
      rw [hst]
      dsimp only
      have hz2 : z ∈ x :: visited := by
        rcases hz with hz | hz
        · exact List.mem_cons_of_mem _ hz
        · rw [hz]
          exact List.mem_cons_self _ _
      obtain ⟨f2, rfl⟩ : ∃ f2, f = f2 + 1 := ⟨f - 1, by omega⟩
      rw [walkFrom, if_pos hz2]
      rfl
  | b :: rest2, x, visited, fuel, hfuel, hnd, hdisj, hz, hch => by
      obtain ⟨⟨st, hst⟩, htail⟩ := hch
      obtain ⟨f, rfl⟩ : ∃ f, fuel = f + 1 := ⟨fuel - 1, by omega⟩
      rw [walkFrom, if_neg (hdisj x (List.mem_cons_self _ _))]
      rw [hst]
      dsimp only
      have hz2 : z ∈ x :: visited := by
        rcases hz with hz | hz
        · exact List.mem_cons_of_mem _ hz
        · rw [hz]
          exact List.mem_cons_self _ _
      have ih := walkFrom_chain gf z rest2 b (x :: visited) f
        (by simpa using Nat.le_of_succ_le_succ (by simpa using hfuel))
        (List.nodup_cons.mp hnd).2
        (by
          intro y hy
          intro hyv
          rcases List.mem_cons.mp hyv with hyx | hyv
          · exact (List.nodup_cons.mp hnd).1 (hyx ▸ hy)
          · exact hdisj y (List.mem_cons_of_mem _ hy) hyv)
        (Or.inl hz2)
        htail
      rw [ih]
      rfl

/-- Extending a feasible load simulation by one in-bounds station. -/
theorem feasLoop_append_one (gap : Nat → Int) (q : Int) :
    ∀ (l : List Nat) (acc : Int) (y : Nat),
      feasLoop gap q acc l = true →
      0 ≤ acc + (l.map gap).sum + gap y →
      acc + (l.map gap).sum + gap y ≤ q →
      feasLoop gap q acc (l ++ [y]) = true
  | [], acc, y, _, h0, hq => by
      simp only [List.map_nil, List.sum_nil, add_zero] at h0 hq
      rw [List.nil_append, feasLoop]
      rw [if_neg (by omega)]
      rfl
  | a :: l, acc, y, hfeas, h0, hq => by
      rw [feasLoop] at hfeas
      by_cases hcond : acc + gap a < 0 ∨ acc + gap a > q
      · rw [if_pos hcond] at hfeas
        exact absurd hfeas (by simp)
      · rw [if_neg hcond] at hfeas
        rw [List.cons_append, feasLoop, if_neg hcond]
        apply feasLoop_append_one gap q l (acc + gap a) y hfeas
        · simp only [List.map_cons, List.sum_cons] at h0
          omega
        · simp only [List.map_cons, List.sum_cons] at hq
          omega

/-- The `greedy`/`method1` loop preserves the chain invariant,
extending the path by exactly one fresh non-depot station per
iteration. -/
theorem greedyLoop_inv (d : Nat → Nat → ℚ) (q : Int)
    (g0 : SolvingStationGraph)
    (H0 : ∃ e ∈ g0.entries, e.1 = 0)
    (H1 : (g0.entries.map (fun e => e.1)).Nodup)
    (H2 : ∀ e ∈ g0.entries, e.2.1.id = e.1) :
    ∀ (fuel : Nat) (g : SolvingStationGraph) (cursor : TStation) (load : Int)
      (path : List Nat) (gf : SolvingStationGraph) (cf : TStation) (lf : Int),
      greedyInv g0 q path g cursor load →
      greedyLoop d q fuel g cursor load = .ok (gf, cf, lf) →
      ∃ ext : List Nat, ext.length = fuel ∧
        greedyInv g0 q (path ++ ext) gf cf lf
  | 0, g, cursor, load, path, gf, cf, lf, hinv, hrun => by
      rw [greedyLoop] at hrun
      injection hrun with hrun
      rw [Prod.mk.injEq, Prod.mk.injEq] at hrun
      obtain ⟨h1, h2, h3⟩ := hrun
      subst h1
      subst h2
      subst h3
      exact ⟨[], rfl, by rw [List.append_nil]; exact hinv⟩
  | fuel + 1, g, cursor, load, path, gf, cf, lf, hinv, hrun => by
      obtain ⟨es⟩ := g
      obtain ⟨hent, hpne, hnd, hkeys, hlastp, hcur, hfeas, hload⟩ := hinv
      change es = chainEntries g0 (0 :: path) at hent
      subst hent
      rw [greedyLoop] at hrun
      obtain ⟨near, hnear, hrun⟩ := exceptBind_ok hrun
      cases near with
      | none =>
          dsimp only at hrun
          simp at hrun
      | some ns =>
          dsimp only at hrun
          obtain ⟨g2, hg2, hrun⟩ := exceptBind_ok hrun
          have hns := gnn_ok_some d ⟨chainEntries g0 (0 :: path)⟩ cursor.id
            (greedyCond ⟨chainEntries g0 (0 :: path)⟩ cursor.id load q) ns hnear
          obtain ⟨hnsmem, hnsne, hnscond, _⟩ := hns
          have hcond := hnscond
          unfold greedyCond at hcond
          simp only [Bool.and_eq_true, bne_iff_ne, ne_eq,
            decide_eq_true_eq] at hcond
          obtain ⟨⟨⟨⟨hns0, _⟩, hpred⟩, hlb⟩, hub⟩ := hcond
          have hnsmem0 : ns ∈ g0.list_stations := by
            rw [chainEntries_list_stations] at hnsmem
            exact hnsmem
          obtain ⟨ens, hens, hens2⟩ := List.mem_map.mp hnsmem0
          have henskey : ens.1 = ns.id := by rw [← H2 ens hens, hens2]
          have hgetns : g0.getEntry ns.id = some ens := by
            rw [← henskey]
            exact find?_key_nodup g0.entries ens H1 hens
          have hgapns : gapOf g0 ns.id = ns.bike_gap := by
            unfold gapOf
            rw [hgetns]
            dsimp only
            rw [hens2]
          have hnotpath : ns.id ∉ path := by
            intro hmem
            obtain ⟨p, hp, hnext⟩ := exists_pred_of_mem 0 path ns.id hnd hmem
            have hkeyp : ∃ ep ∈ g0.entries, ep.1 = p := by
              rcases List.mem_cons.mp hp with hp0 | hpp
              · obtain ⟨e0, he0, hk0⟩ := H0
                exact ⟨e0, he0, by rw [hk0, hp0]⟩
              · exact hkeys p hpp
            obtain ⟨ep, hep, hepk⟩ := hkeyp
            have hpred2 := hpred
            unfold predIsNone at hpred2
            rw [Option.isNone_iff_eq_none, List.find?_eq_none] at hpred2
            have hmem2 : ((ep.1, ep.2.1, nextIn (0 :: path) ep.1) : GEntry) ∈
                chainEntries g0 (0 :: path) :=
              List.mem_map.mpr ⟨ep, hep, rfl⟩
            have hsat : nextIn (0 :: path) ep.1 = some ns.id := by
              rw [hepk]
              exact hnext
            have hneg := hpred2 _ hmem2
            simp only [decide_eq_true_eq] at hneg
            exact hneg hsat
          have hnot0path : ns.id ∉ (0 :: path) := by
            intro h
            rcases List.mem_cons.mp h with h | h
            · exact hns0 h
            · exact hnotpath h
          have hlast0 : (0 :: path).getLast? = some cursor.id := by
            obtain ⟨ph, pt, rfl⟩ := List.exists_cons_of_ne_nil hpne
            rw [List.getLast?_cons_cons]
            exact hlastp
          obtain ⟨_, _, hg2eq⟩ := add_edge_ok _ cursor.id ns.id g2 hg2
          rw [setSucc_chainEntries g0 (0 :: path) cursor.id ns.id hnd
            hnot0path hlast0] at hg2eq
          have hinv2 : greedyInv g0 q (path ++ [ns.id]) g2 ns
              (load + ns.bike_gap) := by
            refine ⟨?_, ?_, ?_, ?_, ?_, ?_, ?_, ?_⟩
            · rw [hg2eq]
              show chainEntries g0 ((0 :: path) ++ [ns.id]) =
                chainEntries g0 (0 :: (path ++ [ns.id]))
              rw [List.cons_append]
            · simp
            · rw [show (0 : Nat) :: (path ++ [ns.id]) =
                (0 :: path) ++ [ns.id] from rfl, List.nodup_append]
              refine ⟨hnd, List.nodup_singleton _, ?_⟩
              intro a ha hb
              rw [List.mem_singleton] at hb
              subst hb
              exact hnot0path ha
            · intro x hx
              rcases List.mem_append.mp hx with hx | hx
              · exact hkeys x hx
              · rw [List.mem_singleton] at hx
                subst hx
                exact ⟨ens, hens, henskey⟩
            · rw [List.getLast?_concat]
            · obtain ⟨k, st, su⟩ := ens
              simp only at hens2
              simp only at henskey
              subst hens2
              subst henskey
              exact ⟨su, hgetns⟩
            · apply feasLoop_append_one (gapOf g0) q path 0 ns.id hfeas
              · rw [hgapns, zero_add, ← hload]
                exact hlb
              · rw [hgapns, zero_add, ← hload]
                exact hub
            · rw [List.map_append, List.sum_append, ← hload]
              simp [hgapns]
          obtain ⟨ext, hextlen, hextinv⟩ := greedyLoop_inv d q g0 H0 H1 H2
            fuel g2 ns (load + ns.bike_gap) (path ++ [ns.id]) gf cf lf
            hinv2 hrun
          refine ⟨ns.id :: ext, by simp [hextlen], ?_⟩
          rwa [List.append_assoc, List.singleton_append] at hextinv

/-- Lookup after a successor overwrite: the looked-up entry with its
successor replaced when its key matches. -/
theorem find?_setSucc : ∀ (es : List GEntry) (a : Nat) (su : Option Nat) (x : Nat),
    (SolvingStationGraph.setSucc es a su).find? (fun e => e.1 = x) =
      (es.find? (fun e => e.1 = x)).map
        (fun e => if e.1 = a then (e.1, e.2.1, su) else e)
  | [], _, _, _ => rfl
  | e :: es, a, su, x => by
      show (List.map _ (e :: es)).find? _ = _
      rw [List.map_cons]
      have hproj : (if e.1 = a then (e.1, e.2.1, su) else e).1 = e.1 := by
        by_cases hea : e.1 = a <;> simp [hea]
      by_cases hex : e.1 = x
      · rw [List.find?_cons_of_pos _ (by simp only [hproj]; simpa using hex),
          List.find?_cons_of_pos _ (by simpa using hex)]
        rfl
      · rw [List.find?_cons_of_neg _ (by simp [hproj, hex]),
          List.find?_cons_of_neg _ (by simpa using hex)]
        exact find?_setSucc es a su x

/-- `getEntry` after a successor overwrite. -/
theorem setSucc_getEntry (es : List GEntry) (a : Nat) (su : Option Nat) (x : Nat) :
    SolvingStationGraph.getEntry ⟨SolvingStationGraph.setSucc es a su⟩ x =
      (SolvingStationGraph.getEntry ⟨es⟩ x).map
        (fun e => if e.1 = a then (e.1, e.2.1, su) else e) :=
  find?_setSucc es a su x

/-- Successor overwrites change no gap. -/
theorem setSucc_gapOf (es : List GEntry) (a : Nat) (su : Option Nat) (x : Nat) :
    gapOf ⟨SolvingStationGraph.setSucc es a su⟩ x = gapOf ⟨es⟩ x := by
  unfold gapOf
  rw [setSucc_getEntry]
  cases SolvingStationGraph.getEntry ⟨es⟩ x with
  | none => rfl
  | some e =>
      simp only [Option.map_some']
      by_cases hea : e.1 = a
      · rw [if_pos hea]
      · rw [if_neg hea]

/-- Successor overwrites keep the number of entries. -/
theorem setSucc_length (es : List GEntry) (a : Nat) (su : Option Nat) :
    (SolvingStationGraph.setSucc es a su).length = es.length :=
  List.length_map _ _

/-- Filtering one element out of a duplicate-free list shortens it by
exactly one. -/
theorem length_filter_ne : ∀ (l : List Nat) (a : Nat), l.Nodup → a ∈ l →
    (l.filter (fun x => x ≠ a)).length = l.length - 1
  | [], a, _, ha => absurd ha (List.not_mem_nil a)
  | b :: t, a, hnd, ha => by
      rw [List.filter_cons]
      rcases List.mem_cons.mp ha with hab | hat
      · subst hab
        rw [if_neg (by simp)]
        rw [List.filter_eq_self.mpr (fun x hx => by
          simp only [ne_eq, decide_eq_true_eq]
          exact fun hxa => (List.nodup_cons.mp hnd).1 (hxa ▸ hx))]
        simp
      · have hba : ¬ b = a := fun h => (List.nodup_cons.mp hnd).1 (h ▸ hat)
        rw [if_pos (by simpa using hba)]
        rw [List.length_cons,
          length_filter_ne t a (List.nodup_cons.mp hnd).2 hat]
        have hlen : 0 < t.length := List.length_pos.mpr (List.ne_nil_of_mem hat)
        simp only [List.length_cons]
        omega

/-- C4: on a well-formed edge-free instance — duplicate-free keys,
each station record carrying its key, a depot under key 0, every
non-depot gap nonzero with `|gap| ≤ Q // 2`, and gaps summing to 0 —
whenever `greedy` returns a graph without raising, the walk from the
depot is `0 :: path` where `path` lists every non-depot station
exactly once, the load simulation of the walk (starting at 0, depot
excluded) stays within `[0, Q]`, and the last path station links back
to the depot. -/
theorem c4_greedy_builds_feasible_tour (d : Nat → Nat → ℚ)
    (g0 : SolvingStationGraph) (q : Int) (gf : SolvingStationGraph)
    (H1 : (g0.entries.map (fun e => e.1)).Nodup)
    (H2 : ∀ e ∈ g0.entries, e.2.1.id = e.1)
    (H3 : ∀ e ∈ g0.entries, e.2.2 = none)
    (Hdep : g0.has_station 0 = true)
    (Hgap : ∀ e ∈ g0.entries, e.1 ≠ 0 →
      e.2.1.bike_gap ≠ 0 ∧ |e.2.1.bike_gap| ≤ q.fdiv 2)
    (Hsum : (g0.entries.map (fun e => e.2.1.bike_gap)).sum = 0)
    (hok : greedy d g0 q = .ok gf) :
    ∃ path : List Nat,
      gf.get_turn = .ok (0 :: path) ∧
      (0 :: path).Nodup ∧
      (∀ x ∈ path, x ≠ 0 ∧ ∃ e ∈ g0.entries, e.1 = x) ∧
      (∀ e ∈ g0.entries, e.1 ≠ 0 → e.1 ∈ path) ∧
      is_turn_feasible gf (0 :: path) q = true ∧
      (∃ lst, path.getLast? = some lst ∧ gf.has_edge lst 0 = true) := by
  unfold greedy at hok
  obtain ⟨first, hfirst, hok⟩ := exceptBind_ok hok
  cases first with
  | none =>
      dsimp only at hok
      simp at hok
  | some c0 =>
      dsimp only at hok
      obtain ⟨g1, hg1, hok⟩ := exceptBind_ok hok
      obtain ⟨res, hres, hok⟩ := exceptBind_ok hok
      obtain ⟨gl, cl, ll⟩ := res
      obtain ⟨g3, hg3, hok⟩ := exceptBind_ok hok
      injection hok with hok
      subst hok
      obtain ⟨hc0mem, hc0ne, hc0cond, -⟩ :=
        gnn_ok_some d g0 0 (fun s => (s.id != 0) && s.is_loading) c0 hfirst
      have hc0load : 0 < c0.bike_gap := by
        simp only [Bool.and_eq_true, TStation.is_loading,
          decide_eq_true_eq] at hc0cond
        exact hc0cond.2
      obtain ⟨ec0, hec0, hec02⟩ := List.mem_map.mp hc0mem
      obtain ⟨k0, st0, su0⟩ := ec0
      dsimp only at hec02
      rw [hec02] at hec0
      have hc0key : c0.id = k0 := H2 _ hec0
      rw [← hc0key] at hec0
      have hgetc0 : g0.getEntry c0.id = some (c0.id, c0, su0) :=
        find?_key_nodup g0.entries (c0.id, c0, su0) H1 hec0
      obtain ⟨-, -, hg1eq⟩ := add_edge_ok g0 0 c0.id g1 hg1
      have hchain1 : SolvingStationGraph.setSucc g0.entries 0 (some c0.id) =
          chainEntries g0 [0, c0.id] := by
        unfold SolvingStationGraph.setSucc chainEntries
        apply List.map_congr_left
        intro e he
        by_cases he0 : e.1 = 0
        · rw [if_pos he0, he0]
          rfl
        · rw [if_neg he0]
          have hnone : nextIn [0, c0.id] e.1 = none := by
            rw [nextIn_cons_cons, if_neg (fun h => he0 h.symm)]
            rfl
          rw [hnone]
          have hsu := H3 e he
          obtain ⟨k, st, su⟩ := e
          dsimp only at hsu ⊢
          rw [hsu]
      have hgapc0 : gapOf g0 c0.id = c0.bike_gap := by
        unfold gapOf
        rw [hgetc0]
      have habs : |c0.bike_gap| ≤ q.fdiv 2 := (Hgap _ hec0 hc0ne).2
      have hq2 : c0.bike_gap ≤ q := by
        rw [Int.fdiv_eq_ediv _ (by norm_num)] at habs
        rw [abs_of_pos hc0load] at habs
        omega
      have hinv1 : greedyInv g0 q [c0.id] g1 c0 c0.bike_gap := by
        refine ⟨?_, by simp, ?_, ?_, rfl, ⟨su0, hgetc0⟩, ?_, ?_⟩
        · rw [hg1eq]
          exact hchain1
        · exact List.nodup_cons.mpr ⟨by
            simp only [List.mem_singleton]
            exact fun h => hc0ne h.symm, List.nodup_singleton _⟩
        · intro x hx
          rw [List.mem_singleton] at hx
          subst hx
          exact ⟨(c0.id, c0, su0), hec0, rfl⟩
        · rw [feasLoop, hgapc0, if_neg (by omega)]
          rfl
        · simp [hgapc0]
      have H0 : ∃ e ∈ g0.entries, e.1 = 0 := (has_station_iff_exists g0 0).mp Hdep
      obtain ⟨ext, hextlen, hinvf⟩ := greedyLoop_inv d q g0 H0 H1 H2
        (g0.size - 2) g1 c0 c0.bike_gap [c0.id] gl cl ll hinv1 hres
      have hinvf2 : greedyInv g0 q (c0.id :: ext) gl cl ll := by
        rwa [← List.singleton_append]
      obtain ⟨hentf, -, hndf, hkeysf, hlastf, -, hfeasf, -⟩ := hinvf2
      obtain ⟨-, -, hg3eq⟩ := add_edge_ok gl cl.id 0 g3 hg3
      have hgf2 : g3 = SolvingStationGraph.mk (SolvingStationGraph.setSucc
          (chainEntries g0 (0 :: c0.id :: ext)) cl.id (some 0)) := by
        rw [hg3eq, hentf]
      have hlastL : ((0 : Nat) :: c0.id :: ext).getLast? = some cl.id := by
        rw [List.getLast?_cons_cons]
        exact hlastf
      have hget0 : ∀ x ∈ (0 : Nat) :: c0.id :: ext,
          ∃ ex : GEntry, g0.getEntry x = some ex ∧ ex.1 = x := by
        intro x hx
        rcases List.mem_cons.mp hx with hx0 | hxp
        · subst hx0
          obtain ⟨e0, he0m, he0k⟩ := H0
          refine ⟨e0, ?_, he0k⟩
          rw [← he0k]
          exact find?_key_nodup g0.entries e0 H1 he0m
        · obtain ⟨e, hem, hek⟩ := hkeysf x hxp
          refine ⟨e, ?_, hek⟩
          rw [← hek]
          exact find?_key_nodup g0.entries e H1 hem
      have hgfget : ∀ x ∈ (0 : Nat) :: c0.id :: ext, ∃ st : TStation,
          g3.getEntry x = some (x, st,
            if ((0 : Nat) :: c0.id :: ext).getLast? = some x then some 0
            else nextIn (0 :: c0.id :: ext) x) := by
        intro x hx
        obtain ⟨ex, hex, hexk⟩ := hget0 x hx
        refine ⟨ex.2.1, ?_⟩
        rw [hgf2, setSucc_getEntry, chainEntries_getEntry, hex]
        simp only [Option.map_some']
        rw [hexk]
        by_cases hxc : x = cl.id
        · rw [if_pos hxc, if_pos (by rw [hxc]; exact hlastL)]
        · rw [if_neg hxc,
            if_neg (fun hc => hxc (Option.some_inj.mp (hlastL.symm.trans hc)).symm)]
      have hch : chainHolds g3 0 (0 :: c0.id :: ext) :=
        chainHolds_of_chain g3 0 (0 :: c0.id :: ext) hndf hgfget
      have hsizegf : g3.size = g0.size := by
        rw [hgf2]
        show (SolvingStationGraph.setSucc
          (chainEntries g0 (0 :: c0.id :: ext)) cl.id (some 0)).length =
            g0.entries.length
        rw [setSucc_length]
        exact chainEntries_size g0 _
      have hsize2 : 2 ≤ g0.size := by
        have h0k : (0 : Nat) ∈ g0.entries.map (fun e => e.1) := by
          obtain ⟨e0, he0m, he0k⟩ := H0
          exact List.mem_map.mpr ⟨e0, he0m, he0k⟩
        have hck : c0.id ∈ g0.entries.map (fun e => e.1) :=
          List.mem_map.mpr ⟨(c0.id, c0, su0), hec0, rfl⟩
        have hsub : ([0, c0.id] : List Nat) ⊆ g0.entries.map (fun e => e.1) := by
          intro y hy
          rcases List.mem_cons.mp hy with h | h
          · exact h ▸ h0k
          · rw [List.mem_singleton] at h
            exact h ▸ hck
        have hnd02 : ([0, c0.id] : List Nat).Nodup := by
          refine List.nodup_cons.mpr ⟨?_, List.nodup_singleton _⟩
          simp only [List.mem_singleton]
          exact fun h => hc0ne h.symm
        have hle := (hnd02.subperm hsub).length_le
        simpa [SolvingStationGraph.size] using hle
      have hplen : (c0.id :: ext).length = g0.size - 1 := by
        rw [List.length_cons, hextlen]
        omega
      refine ⟨c0.id :: ext, ?_, hndf, ?_, ?_, ?_, ⟨cl.id, hlastf, ?_⟩⟩
      · show walkFrom g3 (g3.size + 1) 0 [] = Except.ok (0 :: c0.id :: ext)
        refine walkFrom_chain g3 0 (c0.id :: ext) 0 [] (g3.size + 1) ?_ hndf
          (fun y _ => List.not_mem_nil y) (Or.inr rfl) hch
        rw [hsizegf, List.length_cons, hextlen]
        omega
      · intro x hx
        refine ⟨?_, hkeysf x hx⟩
        intro h
        exact (List.nodup_cons.mp hndf).1 (h ▸ hx)
      · intro e he hne
        have hmemnd : e.1 ∈ (g0.entries.map (fun e => e.1)).filter
            (fun x => x ≠ 0) := by
          refine List.mem_filter.mpr ⟨List.mem_map.mpr ⟨e, he, rfl⟩, ?_⟩
          simpa using hne
        have hsubp : (c0.id :: ext) ⊆ (g0.entries.map (fun e => e.1)).filter
            (fun x => x ≠ 0) := by
          intro x hx
          obtain ⟨e2, he2, he2k⟩ := hkeysf x hx
          refine List.mem_filter.mpr ⟨List.mem_map.mpr ⟨e2, he2, he2k⟩, ?_⟩
          simp only [ne_eq, decide_eq_true_eq]
          exact fun h => (List.nodup_cons.mp hndf).1 (h ▸ hx)
        have hndp : (c0.id :: ext).Nodup := (List.nodup_cons.mp hndf).2
        have hflen : ((g0.entries.map (fun e => e.1)).filter
            (fun x => x ≠ 0)).length = g0.size - 1 := by
          have h0k : (0 : Nat) ∈ g0.entries.map (fun e => e.1) := by
            obtain ⟨e0, he0m, he0k⟩ := H0
            exact List.mem_map.mpr ⟨e0, he0m, he0k⟩
          rw [length_filter_ne _ 0 H1 h0k, List.length_map]
          rfl
        have hperm : (c0.id :: ext).Perm
            ((g0.entries.map (fun e => e.1)).filter (fun x => x ≠ 0)) :=
          (hndp.subperm hsubp).perm_of_length_le
            (le_of_eq (by rw [hflen, hplen]))
        exact hperm.mem_iff.mpr hmemnd
      · show feasLoop (gapOf g3) q 0 (c0.id :: ext) = true
        have hfun : gapOf g3 = gapOf g0 := funext (fun y => by
          rw [hgf2, setSucc_gapOf, chainEntries_gapOf])
        rw [hfun]
        exact hfeasf
      · have hclmem : cl.id ∈ (0 : Nat) :: c0.id :: ext :=
          List.mem_cons_of_mem _ (List.mem_of_getLast?_eq_some hlastf)
        obtain ⟨st, hst⟩ := hgfget cl.id hclmem
        rw [if_pos hlastL] at hst
        unfold SolvingStationGraph.has_edge
        rw [hst]
        rfl

/-- Witness for `c4_greedy_builds_feasible_tour`: on `gLoaded` with
capacity 10 under the line metric, `greedy` builds the closed tour
`0 → 1 → 2 → 3 → 0`. -/
theorem c4_greedy_builds_feasible_tour_witness :
    ∃ path : List Nat,
      gGreedyOut.get_turn = .ok (0 :: path) ∧
      (0 :: path).Nodup ∧
      (∀ x ∈ path, x ≠ 0 ∧ ∃ e ∈ gLoaded.entries, e.1 = x) ∧
      (∀ e ∈ gLoaded.entries, e.1 ≠ 0 → e.1 ∈ path) ∧
      is_turn_feasible gGreedyOut (0 :: path) 10 = true ∧
      (∃ lst, path.getLast? = some lst ∧ gGreedyOut.has_edge lst 0 = true) :=
  c4_greedy_builds_feasible_tour dLine gLoaded 10 gGreedyOut
    (by decide) (by decide) (by decide) (by decide) (by decide) (by decide)
    (by with_unfolding_all rfl)

/-- C9 counterexample: `method1` draws its first cursor station
uniformly at random among the loading stations instead of taking the
one nearest to the depot: on `gLoaded` the legal draw of index 1
starts from loading station 2 although loading station 1 is strictly
nearer to the depot under the line metric, and the equally legal draw
of index 0 starts differently — so the constructed tour is not
determined by the instance alone. -/
theorem c9_method1_first_station_not_nearest :
    method1FirstStation gLoaded 1 = some ⟨2, 8, 5⟩ ∧
    method1FirstStation gLoaded 0 = some ⟨1, 7, 5⟩ ∧
    (⟨1, 7, 5⟩ : TStation).is_loading = true ∧
    dLine 0 1 < dLine 0 2 ∧
    method1FirstStation gLoaded 0 ≠ method1FirstStation gLoaded 1 := by
  refine ⟨by decide, by decide, by decide, ?_, by decide⟩
  unfold dLine
  norm_num

/-- C9 amended: `greedy` (unlike `method1`) does start from a loading
station at minimal haversine distance to the depot: whenever it
succeeds, its first nearest-neighbor query returned a non-depot
loading station whose distance to the depot is minimal among all
non-depot loading stations. -/
theorem c9_greedy_first_station_nearest (d : Nat → Nat → ℚ)
    (g : SolvingStationGraph) (q : Int) (gf : SolvingStationGraph)
    (hok : greedy d g q = .ok gf) :
    ∃ c0, g.get_nearest_neighbor d 0 (fun s => (s.id != 0) && s.is_loading) =
        .ok (some c0) ∧
      c0 ∈ g.list_stations ∧ c0.id ≠ 0 ∧ c0.is_loading = true ∧
      ∀ c ∈ g.list_stations, c.id ≠ 0 → c.is_loading = true →
        d 0 c0.id ≤ d 0 c.id := by
  unfold greedy at hok
  obtain ⟨first, hfirst, hok⟩ := exceptBind_ok hok
  cases first with
  | none =>
      dsimp only at hok
      simp at hok
  | some c0 =>
      obtain ⟨hc0mem, hc0ne, hc0cond, hc0min⟩ :=
        gnn_ok_some d g 0 (fun s => (s.id != 0) && s.is_loading) c0 hfirst
      have hload : c0.is_loading = true := by
        simp only [Bool.and_eq_true] at hc0cond
        exact hc0cond.2
      refine ⟨c0, hfirst, hc0mem, hc0ne, hload, ?_⟩
      intro c hc hcne hcl
      exact hc0min c hc hcne (by simp [hcne, hcl])

/-- Witness for `c9_greedy_first_station_nearest`: on `gLoaded` with
capacity 10 under the line metric, `greedy` succeeds, so its first
station is a nearest loading station. -/
theorem c9_greedy_first_station_nearest_witness :
    ∃ c0, gLoaded.get_nearest_neighbor dLine 0
        (fun s => (s.id != 0) && s.is_loading) = .ok (some c0) ∧
      c0 ∈ gLoaded.list_stations ∧ c0.id ≠ 0 ∧ c0.is_loading = true ∧
      ∀ c ∈ gLoaded.list_stations, c.id ≠ 0 → c.is_loading = true →
        dLine 0 c0.id ≤ dLine 0 c.id :=
  c9_greedy_first_station_nearest dLine gLoaded 10 gGreedyOut
    (by with_unfolding_all rfl)

end Theorems
